import Mathlib

/-!
Verification development for the SJP JSON parser (sjp.hh / sjp.cc).

The development shallowly embeds the two cores of the library:

* the character cursor (`get_char` / `unget_char` / `peek_char`, with the
  line/column bookkeeping of `struct cursor`), modelled by `Cursor` below,
  with the C `EOF` marker modelled as `Option.none`;
* the recursive-descent grammar productions (`value`, `object`, `array`,
  `string`, `number`, the literal matchers and `ws`), modelled as total
  functions over a `List Char` input.  A fatal call to `logger->error`
  (which never returns) is modelled as an `Option.none` result, and the
  number of `logger->warn` calls is threaded through as a `Nat`.

The grammar-level functions consume the character stream through the cursor
only via `peek_char(1)` / `get_char` / `eat_char`, and every `peek_char(1)`
is resolved before any deeper call, so at the grammar level the induced
stream of characters is exactly a list; the grammar embedding therefore
works on `List Char` directly, while the cursor is modelled separately and
exactly.  The source is ASCII-only (stated in sjp.hh), so `Char` faithfully
models the C `char` for all inputs in scope.

Mutual recursion of the grammar (`value` ↔ `object`/`array`) is resolved by
a fuel parameter; the loops of `object()`/`array()` take the `value` parser
as an explicit argument so that all definitions are structurally recursive
and evaluate inside the kernel.  The top-level entry `parseDoc` supplies
`input.length + 1` fuel, which suffices because every nested `value` call
sits behind at least one consumed character.
-/

/-! # The character cursor (sjp.cc, `get_char` / `unget_char` / `peek_char`) -/

/-- A character as returned by `get_char`: `none` models the `EOF` marker that
the C code stores into a `char` when the stream is exhausted. -/
abbrev JChar := Option Char

/-- State of `sjp::Parser`'s stream access: the FIFO `unget_queue`, the not yet
read bytes of `in_stream`, and the three counters of `struct cursor`
(`char_no` starts at 0, `line_no` at 1, `prev_line_len` at 0). -/
structure Cursor where
  queue : List JChar
  source : List Char
  charNo : Nat
  lineNo : Nat
  prevLineLen : Nat
deriving DecidableEq

/-- Initial cursor over a byte source, mirroring the member initialisers of
`struct cursor` in sjp.hh. -/
def Cursor.init (src : List Char) : Cursor :=
  { queue := [], source := src, charNo := 0, lineNo := 1, prevLineLen := 0 }

/-- The raw read of `get_char` before the position update: pop the unget queue
if non-empty, otherwise read one byte, or produce the EOF marker once the
source is exhausted (repeated `fread` on an exhausted stream keeps reporting
`feof`, so the exhausted source stays exhausted). -/
def popRaw (s : Cursor) : JChar × Cursor :=
  match s.queue with
  | q :: qs => (q, { s with queue := qs })
  | [] =>
    match s.source with
    | b :: bs => ((some b : JChar), { s with source := bs })
    | [] => ((none : JChar), s)

/-- `sjp::Parser::get_char` (sjp.cc lines 377-402): the raw read of `popRaw`
followed by the position update: a newline runs `increment_line`, an EOF
marker at column zero un-counts the line (saturating at line 1: `line_no > 1
? line_no-1 : 1`), and any other character advances the column. -/
def getChar (s : Cursor) : JChar × Cursor :=
  let c := (popRaw s).1
  let s1 := (popRaw s).2
  if c = some '\n' then
    (c, { s1 with lineNo := s1.lineNo + 1, prevLineLen := s1.charNo, charNo := 0 })
  else if c = none ∧ s1.charNo = 0 then
    (c, { s1 with lineNo := if 1 < s1.lineNo then s1.lineNo - 1 else 1 })
  else
    (c, { s1 with charNo := s1.charNo + 1 })

/-- `sjp::Parser::unget_char` (sjp.cc lines 465-477): push the character onto
the back of the FIFO queue and reverse the position bookkeeping (`line_no` and
`char_no` are `size_t`; the subtractions below never wrap in any state the
claims quantify over, and `Nat` subtraction models them). -/
def ungetChar (c : JChar) (s : Cursor) : Cursor :=
  let s1 := { s with queue := s.queue ++ [c] }
  if c = some '\n' then
    { s1 with charNo := s1.prevLineLen, lineNo := s1.lineNo - 1 }
  else if c = none ∧ s1.charNo = 0 then
    { s1 with lineNo := s1.lineNo + 1 }
  else
    { s1 with charNo := s1.charNo - 1 }

/-- Read `n` characters in sequence via `getChar`, collecting the results (the
`while (n--) { c = get_char(); local_queue.push_back(c); }` loop of
`peek_char`). -/
def getN : Nat → Cursor → List JChar × Cursor
  | 0, s => ([], s)
  | n + 1, s =>
    let p := getChar s
    let q := getN n p.2
    (p.1 :: q.1, q.2)

/-- Push a list of characters back in order (the `for (char c : local_queue)
unget_char(c);` loop of `peek_char`). -/
def ungetAll : List JChar → Cursor → Cursor
  | [], s => s
  | c :: cs, s => ungetAll cs (ungetChar c s)

/-- `sjp::Parser::peek_char` (sjp.cc lines 451-463): consume `n` characters,
push them all back in order, and return the last one consumed.  For `n = 0`
the C code returns an indeterminate `char`; the model returns the EOF marker
(the claims only quantify over `n ≥ 1`). -/
def peekChar (n : Nat) (s : Cursor) : JChar × Cursor :=
  let p := getN n s
  (p.1.getLastD none, ungetAll p.1 p.2)

/-- The pending character stream of a cursor in reading order: the unget queue
first, then the unread bytes of the source. -/
def charSeq (s : Cursor) : List JChar :=
  s.queue ++ s.source.map some

/-- The first `m` characters `getChar` will deliver, padded with EOF markers
once the stream runs dry. -/
def padTake (m : Nat) (l : List JChar) : List JChar :=
  l.take m ++ List.replicate (m - l.length) none

/-- A cursor that has reached end of input: no bytes left, and nothing but EOF
markers (if anything) pending on the unget queue. -/
def atEof (s : Cursor) : Prop :=
  s.source = [] ∧ ∀ c ∈ s.queue, c = (none : JChar)

/-! # The value tree (sjp.hh) -/

/-- The node variants of the value tree, one constructor per `JsonValue`
subclass of sjp.hh.  `JsonObject` fuses `values` and `names_in_order` into one
association list in insertion order (the two containers are kept in sync by
`add_value`, which is the only writer); `JsonNumber` carries the parsed value
as an exact rational, the model of the C `double` accumulation (exact for the
fold, see the `number` embedding below). -/
inductive JsonValue where
  | JsonObject (entries : List (String × JsonValue))
  | JsonArray (values : List JsonValue)
  | JsonString (value : String)
  | JsonNumber (value : ℚ)
  | JsonTrue
  | JsonFalse
  | JsonNull
  | JsonNone

mutual

/-- Structural equality test on trees (used to build `DecidableEq`, which the
deriving handler does not provide for this nested inductive). -/
def beqVal : JsonValue → JsonValue → Bool
  | .JsonObject a, .JsonObject b => beqEntries a b
  | .JsonArray a, .JsonArray b => beqItems a b
  | .JsonString a, .JsonString b => a = b
  | .JsonNumber a, .JsonNumber b => a = b
  | .JsonTrue, .JsonTrue => true
  | .JsonFalse, .JsonFalse => true
  | .JsonNull, .JsonNull => true
  | .JsonNone, .JsonNone => true
  | _, _ => false

/-- Pointwise equality test on object entry lists. -/
def beqEntries : List (String × JsonValue) → List (String × JsonValue) → Bool
  | [], [] => true
  | (k, v) :: tl, (k2, v2) :: tl2 => k = k2 && beqVal v v2 && beqEntries tl tl2
  | _, _ => false

/-- Pointwise equality test on array element lists. -/
def beqItems : List JsonValue → List JsonValue → Bool
  | [], [] => true
  | v :: tl, v2 :: tl2 => beqVal v v2 && beqItems tl tl2
  | _, _ => false

end

/-- `sjp::JsonValue::size` and its overrides: number of entries for objects
(`values.size()`), number of elements for arrays, and the base-class constant
1 for every leaf and for the None sentinel. -/
def jsize : JsonValue → Nat
  | .JsonObject es => es.length
  | .JsonArray vs => vs.length
  | _ => 1

/-- `operator[](size_t)` across the variants (sjp.cc lines 528-554, sjp.hh):
objects index `names_in_order` (returning the sentinel when
`names_in_order.size() <= i`), arrays index `values`, and every leaf as well
as the sentinel itself returns the shared `default_json_none`. -/
def idxNat : JsonValue → Nat → JsonValue
  | .JsonObject es, i => if h : i < es.length then (es.get ⟨i, h⟩).2 else .JsonNone
  | .JsonArray vs, i => if h : i < vs.length then vs.get ⟨i, h⟩ else .JsonNone
  | .JsonNone, _ => .JsonNone
  | _, _ => .JsonNone

/-- `operator[](const std::string&)` across the variants: objects look the key
up (absent keys give the sentinel), arrays and all leaves give the sentinel,
and the sentinel returns itself. -/
def idxKey : JsonValue → String → JsonValue
  | .JsonObject es, n =>
    match es.find? (fun kv => kv.1 == n) with
    | some kv => kv.2
    | none => .JsonNone
  | .JsonNone, _ => .JsonNone
  | _, _ => .JsonNone

/-- One lookup step: by position or by key (`doc[i]` / `doc["k"]`). -/
inductive Step where
  | pos (i : Nat)
  | key (k : String)
deriving DecidableEq

/-- Apply one lookup step. -/
def applyStep (v : JsonValue) : Step → JsonValue
  | .pos i => idxNat v i
  | .key k => idxKey v k

/-- Apply a chain of lookup steps left to right. -/
def applySteps (v : JsonValue) : List Step → JsonValue
  | [] => v
  | s :: tl => applySteps (applyStep v s) tl

/-- `sjp::JsonObject::add_value` (sjp.cc lines 490-500): a duplicate key emits
one warning (the returned count) and discards the new value; a fresh key is
appended to `names_in_order` and inserted into `values`. -/
def addValue (es : List (String × JsonValue)) (name : String) (val : JsonValue) :
    List (String × JsonValue) × Nat :=
  if es.any (fun kv => kv.1 == name) then (es, 1)
  else (es ++ [(name, val)], 0)

/-! # The grammar productions (sjp.cc) -/

/-- The whitespace set of `sjp::Parser::ws`. -/
def isWs (c : Char) : Bool :=
  c == ' ' || c == '\t' || c == '\n' || c == '\r'

/-- `sjp::Parser::ws`: advance to the next non-whitespace character (the loop
also stops at EOF, i.e. at the empty list). -/
def dropWs (l : List Char) : List Char :=
  l.dropWhile isWs

/-- The `is_digit` lambda of `number()`. -/
def isDig (c : Char) : Bool :=
  decide ('0' ≤ c) && decide (c ≤ '9')

/-- The string-body loop of `sjp::Parser::string` (sjp.cc lines 235-272),
returning the accumulated value, the rest of the input past the closing
quote, and the number of warnings emitted.  A `none` result is the fatal path
(`match_char('"')` failing on EOF or on a newline).  The `\\uXXXX` arm models
`get_unicode_from_hex`, which consumes four characters and appends nothing;
with fewer than four characters left the loop next peeks EOF and the closing
`match_char('"')` fails. -/
def strBody (acc : String) : List Char → Option (String × List Char × Nat)
  | [] => none
  | c :: rest =>
    if c = '"' then some (acc, rest, 0)
    else if c = '\n' then none
    else if c = '\\' then
      match rest with
      | [] => none
      | e :: rest2 =>
        if e = '\\' ∨ e = '/' ∨ e = '"' then strBody (acc.push e) rest2
        else if e = 'b' then strBody (acc.push '\x08') rest2
        else if e = 'f' then strBody (acc.push '\x0C') rest2
        else if e = 'n' then strBody (acc.push '\n') rest2
        else if e = 'r' then strBody (acc.push '\x0D') rest2
        else if e = 't' then strBody (acc.push '\t') rest2
        else if e = 'u' then
          match rest2 with
          | _ :: _ :: _ :: _ :: rest3 => strBody acc rest3
          | [] => none
          | [_] => none
          | [_, _] => none
          | [_, _, _] => none
        else (strBody acc rest2).map (fun r => (r.1, r.2.1, r.2.2 + 1))
    else strBody (acc.push c) rest

/-- The escape characters `string()` recognizes (the `switch` cases of
sjp.cc lines 246-257): any other escape character is warned about and
dropped. -/
def escChar (c : Char) : Bool :=
  c == '\\' || c == '/' || c == '"' || c == 'b' || c == 'f' || c == 'n' ||
    c == 'r' || c == 't' || c == 'u'

/-- A hexadecimal digit (the characters a `\uXXXX` escape is made of; the
code consumes the four following characters without checking them). -/
def isHexDigit (c : Char) : Bool :=
  isDig c || (decide ('a' ≤ c) && decide (c ≤ 'f')) || (decide ('A' ≤ c) && decide (c ≤ 'F'))

/-- `sjp::Parser::string`: match the opening quote, then run the body loop. -/
def parseStr : List Char → Option (String × List Char × Nat)
  | '"' :: rest => strBody "" rest
  | _ => none

/-- The `while (is_digit(peek_char())) { c = get_char(); d_val = d_val*10 +
(c - '0'); }` loop of `number()`. -/
def digitFold : ℚ → List Char → ℚ × List Char
  | v, [] => (v, [])
  | v, c :: rest =>
    if isDig c then digitFold (v * 10 + ((c.toNat - 48 : ℕ) : ℚ)) rest
    else (v, c :: rest)

/-- The fractional-part loop of `number()`: folds digits like `digitFold` and
multiplies `frac_size` by ten per digit. -/
def fracFold : ℚ → ℕ → List Char → ℚ × ℕ × List Char
  | v, fs, [] => (v, fs, [])
  | v, fs, c :: rest =>
    if isDig c then fracFold (v * 10 + ((c.toNat - 48 : ℕ) : ℚ)) (fs * 10) rest
    else (v, fs, c :: rest)

/-- The exponent-digit loop of `number()`.  The C code accumulates `expo` in a
`double`; the value is a non-negative integer throughout, modelled as `ℕ`. -/
def expFold : ℕ → List Char → ℕ × List Char
  | e, [] => (e, [])
  | e, c :: rest =>
    if isDig c then expFold (e * 10 + (c.toNat - 48)) rest
    else (e, c :: rest)

/-- `if (negative) d_val *= -1;` — the sign is applied last. -/
def numFinish (negative : Bool) (v : ℚ) : ℚ :=
  if negative then -v else v

/-- The exponent part of `number()` (sjp.cc lines 320-342) and the final sign
application: on `e`/`E` read an optional sign, require a digit, fold the
remaining digits, and scale by ten to the signed exponent (`exp10` of a
negative integer is exactly a division by the corresponding power of ten). -/
def numAfterFrac (negative : Bool) (v : ℚ) (r : List Char) : Option (ℚ × List Char) :=
  match r with
  | c :: r2 =>
    if c = 'e' ∨ c = 'E' then
      match r2 with
      | [] => none
      | c2 :: r3 =>
        let se := if c2 = '+' ∨ c2 = '-' then (c2 == '-', r3) else (false, c2 :: r3)
        match se.2 with
        | [] => none
        | d :: r4 =>
          if isDig d then
            let p := expFold (d.toNat - 48) r4
            some (numFinish negative (if se.1 then v / 10 ^ p.1 else v * 10 ^ p.1), p.2)
          else none
    else some (numFinish negative v, r)
  | [] => some (numFinish negative v, [])

/-- The fractional part of `number()` (sjp.cc lines 304-318): on a `.` fold
the fraction digits (requiring at least one: `frac_size == 1` is fatal), then
unconditionally divide by `frac_size`. -/
def numAfterInt (negative : Bool) (v : ℚ) (r : List Char) : Option (ℚ × List Char) :=
  match r with
  | '.' :: r2 =>
    let p := fracFold v 1 r2
    if p.2.1 = 1 then none
    else numAfterFrac negative (p.1 / (p.2.1 : ℚ)) p.2.2
  | _ => numAfterFrac negative (v / ((1 : ℕ) : ℚ)) r

/-- The leading-sign step of `number()`: `if (c == '-') { negative = true;
c = get_char(); }`. -/
def negSplit : List Char → Bool × List Char
  | '-' :: r => (true, r)
  | input => (false, input)

/-- The body of `number()` after the sign has been handled: either a single
`0` or a nonzero digit followed by a digit run, then the fractional and
exponent parts.  A missing integer digit (including EOF) is fatal. -/
def parseNumCore (negative : Bool) : List Char → Option (ℚ × List Char)
  | [] => none
  | c :: rest =>
    if decide ('1' ≤ c) && decide (c ≤ '9') then
      let p := digitFold ((c.toNat - 48 : ℕ) : ℚ) rest
      numAfterInt negative p.1 p.2
    else if c = '0' then numAfterInt negative 0 rest
    else none

/-- `sjp::Parser::number` (sjp.cc lines 278-348): optional leading `-`, then
the integer, fractional and exponent parts of `parseNumCore`. -/
def parseNumber (input0 : List Char) : Option (ℚ × List Char) :=
  let s := negSplit input0
  parseNumCore s.1 s.2

/-- `sjp::Parser::match_string`: consume the literal character by character;
any mismatch (including EOF) is fatal. -/
def matchLit : List Char → List Char → Option (List Char)
  | [], input => some input
  | c :: cs, input =>
    match input with
    | d :: ds => if d = c then matchLit cs ds else none
    | [] => none

/-- The member loop of `sjp::Parser::object` (sjp.cc lines 183-197): skip
whitespace, parse a key string, skip whitespace, match `:`, parse a value via
`pv` (the `value()` production, passed explicitly), record it with
`add_value`, and continue on a `,`; any other next character must be the
closing `}` of the trailing `match_char('}')`.  Warnings accumulate in `w`. -/
def parseObjLoop (pv : List Char → Option (JsonValue × List Char × Nat)) :
    Nat → List (String × JsonValue) → Nat → List Char →
      Option (JsonValue × List Char × Nat)
  | 0, _, _, _ => none
  | f + 1, es, w, input =>
    match parseStr (dropWs input) with
    | none => none
    | some (k, r1, w1) =>
      match dropWs r1 with
      | ':' :: r2 =>
        match pv r2 with
        | none => none
        | some (v, r3, w2) =>
          let p := addValue es k v
          match r3 with
          | ',' :: r4 => parseObjLoop pv f p.1 (w + w1 + w2 + p.2) r4
          | '}' :: r4 => some (.JsonObject p.1, r4, w + w1 + w2 + p.2)
          | _ => none
      | _ => none

/-- `sjp::Parser::object` (sjp.cc lines 175-201): match `{`, skip whitespace,
return the empty object on an immediate `}`, otherwise run the member loop. -/
def parseObjStart (pv : List Char → Option (JsonValue × List Char × Nat))
    (f : Nat) (input : List Char) : Option (JsonValue × List Char × Nat) :=
  match input with
  | '{' :: r =>
    match dropWs r with
    | '}' :: r2 => some (.JsonObject [], r2, 0)
    | r1 => parseObjLoop pv f [] 0 r1
  | _ => none

/-- The element loop of `sjp::Parser::array` (sjp.cc lines 211-218): parse a
value, append it, continue on `,`; otherwise the next character must be the
closing `]`. -/
def parseArrLoop (pv : List Char → Option (JsonValue × List Char × Nat)) :
    Nat → List JsonValue → Nat → List Char → Option (JsonValue × List Char × Nat)
  | 0, _, _, _ => none
  | f + 1, vs, w, input =>
    match pv input with
    | none => none
    | some (v, r, w1) =>
      match r with
      | ',' :: r2 => parseArrLoop pv f (vs ++ [v]) (w + w1) r2
      | ']' :: r2 => some (.JsonArray (vs ++ [v]), r2, w + w1)
      | _ => none

/-- `sjp::Parser::array` (sjp.cc lines 203-222): match `[`, skip whitespace,
return the empty array on an immediate `]`, otherwise run the element loop. -/
def parseArrStart (pv : List Char → Option (JsonValue × List Char × Nat))
    (f : Nat) (input : List Char) : Option (JsonValue × List Char × Nat) :=
  match input with
  | '[' :: r =>
    match dropWs r with
    | ']' :: r2 => some (.JsonArray [], r2, 0)
    | r1 => parseArrLoop pv f [] 0 r1
  | _ => none

/-- `sjp::Parser::value` (sjp.cc lines 147-173): skip whitespace, dispatch on
the peeked character (`{ [ " t f n`, else digit or `-` for a number, anything
else — including EOF — is fatal), then skip trailing whitespace. -/
def parseV : Nat → List Char → Option (JsonValue × List Char × Nat)
  | 0, _ => none
  | f + 1, input =>
    let i1 := dropWs input
    let res : Option (JsonValue × List Char × Nat) :=
      match i1 with
      | [] => none
      | c :: _ =>
        if c = '{' then parseObjStart (parseV f) f i1
        else if c = '[' then parseArrStart (parseV f) f i1
        else if c = '"' then
          (parseStr i1).map (fun r => (JsonValue.JsonString r.1, r.2.1, r.2.2))
        else if c = 't' then
          (matchLit "true".data i1).map (fun r => (JsonValue.JsonTrue, r, 0))
        else if c = 'f' then
          (matchLit "false".data i1).map (fun r => (JsonValue.JsonFalse, r, 0))
        else if c = 'n' then
          (matchLit "null".data i1).map (fun r => (JsonValue.JsonNull, r, 0))
        else if isDig c || c = '-' then
          (parseNumber i1).map (fun r => (JsonValue.JsonNumber r.1, r.2, 0))
        else none
    res.map (fun r => (r.1, dropWs r.2.1, r.2.2))

/-- The set of characters on which `value()` dispatches to a production (any
other first non-whitespace character is fatal). -/
def valueStart (c : Char) : Bool :=
  c == '{' || c == '[' || c == '"' || c == 't' || c == 'f' || c == 'n' ||
    isDig c || c == '-'

/-- `sjp::Parser::parse` (sjp.cc lines 120-133): parse one value
(`json()` = `element()` = `value()`), then read one more character; anything
but EOF there adds a trailing-content warning.  The result pairs the tree
with the total number of warnings; `none` is the fatal (non-returning) path.
The fuel `input.length + 1` always suffices: every nested `value()` call sits
behind at least one consumed character of the input. -/
def parseDoc (input : List Char) : Option (JsonValue × Nat) :=
  (parseV (input.length + 1) input).map
    (fun r => (r.1, if r.2.1.isEmpty then r.2.2 else r.2.2 + 1))

/-! # Serialization (sjp.cc `print` overrides, sjp.hh) -/

/-- Number of times `p` divides `n`, computed with explicit fuel (`n` itself is
always enough fuel, since `p ≥ 2` halves `n` at least per step). -/
def divCountF : Nat → Nat → Nat → Nat
  | 0, _, _ => 0
  | f + 1, p, n => if 2 ≤ p ∧ n ≠ 0 ∧ p ∣ n then divCountF f p (n / p) + 1 else 0

/-- Decimal digit values of `n`, least significant first, with explicit fuel
(`n` itself is always enough). -/
def natDigitsF : Nat → Nat → List Nat
  | 0, _ => []
  | f + 1, n => if n = 0 then [] else n % 10 :: natDigitsF f (n / 10)

/-- Value of a little-endian digit list (`natDigitsF`'s output order). -/
def ofLE : List Nat → Nat
  | [] => 0
  | d :: ds => d + 10 * ofLE ds

/-- One most-significant-first decimal digit folded into an accumulator — the
`Nat` shadow of the parser's multiply-by-ten-and-add step. -/
def foldStep (a : Nat) (c : Char) : Nat :=
  a * 10 + (c.toNat - 48)

/-- The digit character for a digit value. -/
def toDigitChar (d : Nat) : Char :=
  Char.ofNat (48 + d)

/-- Decimal digit characters of `n`, most significant first, `"0"` for zero. -/
def digitsOf (n : ℕ) : List Char :=
  if n = 0 then ['0']
  else (natDigitsF n n).reverse.map toDigitChar

/-- Exactly `k` decimal digit characters for a fraction numerator `r < 10^k`:
left-padded with zeros. -/
def fracDigits (r k : ℕ) : List Char :=
  List.replicate (k - (natDigitsF r r).length) '0' ++
    (natDigitsF r r).reverse.map toDigitChar

/-- Modelled from the spec: `JsonNumber::print` renders through the C library
(`fprintf(stream, "%g", value)`), which is outside this repository; §4.3 of
the spec specifies "a general (shortest round-trippable or locale-free)
floating representation".  The model renders the exact shortest decimal form
of the (decimal) rational: optional sign, integer digits, and — when the
denominator requires it — a point followed by exactly as many fraction digits
as the denominator's power of ten. -/
def printNum (q : ℚ) : List Char :=
  let k := max (divCountF q.den 2 q.den) (divCountF q.den 5 q.den)
  let m := q.num.natAbs * 10 ^ k / q.den
  (if q < 0 then ['-'] else []) ++
    (if k = 0 then digitsOf m
     else digitsOf (m / 10 ^ k) ++ '.' :: fracDigits (m % 10 ^ k) k)

/-- The indentation helper `padding` (sjp.cc line 86): two spaces per level. -/
def padding (d : Nat) : List Char :=
  List.replicate (d * 2) ' '

mutual

/-- The `print` overrides (sjp.cc lines 502-526 and sjp.hh): objects and
arrays open with a brace/bracket and a newline, render each child indented
one level deeper with `,\n` between siblings and `\n` after the last, and
close with the indented brace/bracket; strings print their value raw between
quotes; numbers print via `printNum`; `true`, `false`, `null` and the
sentinel print their `type_to_str` name (the base-class `print`). -/
def printVal : JsonValue → Nat → List Char
  | .JsonObject es, d => '{' :: '\n' :: (printEntries es d ++ (padding d ++ ['}']))
  | .JsonArray vs, d => '[' :: '\n' :: (printItems vs d ++ (padding d ++ [']']))
  | .JsonString s, _ => '"' :: (s.data ++ ['"'])
  | .JsonNumber q, _ => printNum q
  | .JsonTrue, _ => "true".data
  | .JsonFalse, _ => "false".data
  | .JsonNull, _ => "null".data
  | .JsonNone, _ => "none".data

/-- The member loop of `JsonObject::print`: per entry the deeper padding, the
quoted key, `": "`, the value at depth `d+1`, and the separator. -/
def printEntries : List (String × JsonValue) → Nat → List Char
  | [], _ => []
  | (k, v) :: tl, d =>
    padding (d + 1) ++
      ('"' :: (k.data ++ ('"' :: ':' :: ' ' :: printVal v (d + 1)))) ++
      (if tl.isEmpty then ['\n'] else [',', '\n']) ++ printEntries tl d

/-- The element loop of `JsonArray::print`. -/
def printItems : List JsonValue → Nat → List Char
  | [], _ => []
  | v :: tl, d =>
    padding (d + 1) ++ printVal v (d + 1) ++
      (if tl.isEmpty then ['\n'] else [',', '\n']) ++ printItems tl d

end

/-- `sjp::Json::print`: the root at depth 0 followed by one newline. -/
def printDoc (t : JsonValue) : List Char :=
  printVal t 0 ++ ['\n']

/-! # Predicates used by the round-trip analysis -/

/-- A string whose raw characters survive `JsonString::print` and re-parsing:
no quote (would close the string early), no backslash (would start an escape)
and no newline (terminates the string-body loop fatally). -/
def strOkB (s : String) : Bool :=
  s.data.all (fun c => !(c == '"' || c == '\\' || c == '\n'))

mutual

/-- Every string value and every object key in the tree satisfies `strOkB`. -/
def goodStrings : JsonValue → Bool
  | .JsonObject es => goodStringsEntries es
  | .JsonArray vs => goodStringsItems vs
  | .JsonString s => strOkB s
  | _ => true

/-- Entry-list form of `goodStrings`. -/
def goodStringsEntries : List (String × JsonValue) → Bool
  | [] => true
  | (k, v) :: tl => strOkB k && goodStrings v && goodStringsEntries tl

/-- Element-list form of `goodStrings`. -/
def goodStringsItems : List JsonValue → Bool
  | [] => true
  | v :: tl => goodStrings v && goodStringsItems tl

end

/-- A rational with a finite decimal expansion — the exact form of every value
`number()` produces. -/
def DecimalRat (q : ℚ) : Prop :=
  ∃ (z : ℤ) (k : ℕ), q = (z : ℚ) / 10 ^ k

mutual

/-- Shape invariant of every tree the parser emits: object keys are distinct
(`add_value` never inserts a duplicate), every number is a decimal rational,
and the `None` sentinel never occurs. -/
def ParserShaped : JsonValue → Prop
  | .JsonObject es => (es.map Prod.fst).Nodup ∧ ParserShapedEntries es
  | .JsonArray vs => ParserShapedItems vs
  | .JsonNumber q => DecimalRat q
  | .JsonNone => False
  | _ => True

/-- Entry-list form of `ParserShaped`. -/
def ParserShapedEntries : List (String × JsonValue) → Prop
  | [] => True
  | (_, v) :: tl => ParserShaped v ∧ ParserShapedEntries tl

/-- Element-list form of `ParserShaped`. -/
def ParserShapedItems : List JsonValue → Prop
  | [] => True
  | v :: tl => ParserShaped v ∧ ParserShapedItems tl

end

/-- A remainder that cannot extend a rendered number: empty, or headed by a
character that is no digit and none of `.`, `e`, `E`. -/
def numStop (rest : List Char) : Bool :=
  match rest with
  | [] => true
  | c :: _ => !(isDig c || c == '.' || c == 'e' || c == 'E')

mutual

/-- Fuel that provably suffices for `parseV` on the rendered form of a tree:
one unit for the `value()` entry plus what the member/element loops need. -/
def needFuel : JsonValue → Nat
  | .JsonObject es => needFuelEntries es + 1
  | .JsonArray vs => needFuelItems vs + 1
  | _ => 1

/-- Loop fuel for an entry list: enough for each member's value and for the
remaining iterations. -/
def needFuelEntries : List (String × JsonValue) → Nat
  | [] => 0
  | (_, v) :: tl => max (needFuel v + 1) (needFuelEntries tl + 1)

/-- Loop fuel for an element list. -/
def needFuelItems : List JsonValue → Nat
  | [] => 0
  | v :: tl => max (needFuel v + 1) (needFuelItems tl + 1)

end

/-! # Decidable equality of trees -/

mutual

theorem beqVal_iff : ∀ a b : JsonValue, beqVal a b = true ↔ a = b
  | a, b => by
    cases a <;> cases b <;>
      simp only [beqVal, decide_eq_true_eq, reduceCtorEq, Bool.false_eq_true, false_iff,
        JsonValue.JsonObject.injEq, JsonValue.JsonArray.injEq, JsonValue.JsonString.injEq,
        JsonValue.JsonNumber.injEq] <;>
      first
        | exact fun h => JsonValue.noConfusion h
        | rfl
        | exact beqEntries_iff _ _
        | exact beqItems_iff _ _

theorem beqEntries_iff : ∀ a b : List (String × JsonValue), beqEntries a b = true ↔ a = b
  | [], [] => by simp [beqEntries]
  | [], _ :: _ => by simp [beqEntries]
  | _ :: _, [] => by simp [beqEntries]
  | (k, v) :: tl, (k2, v2) :: tl2 => by
    simp only [beqEntries, Bool.and_eq_true, decide_eq_true_eq, List.cons.injEq, Prod.mk.injEq]
    rw [beqVal_iff, beqEntries_iff]

theorem beqItems_iff : ∀ a b : List JsonValue, beqItems a b = true ↔ a = b
  | [], [] => by simp [beqItems]
  | [], _ :: _ => by simp [beqItems]
  | _ :: _, [] => by simp [beqItems]
  | v :: tl, v2 :: tl2 => by
    simp only [beqItems, Bool.and_eq_true, List.cons.injEq]
    rw [beqVal_iff, beqItems_iff]

end

instance : DecidableEq JsonValue := fun a b =>
  decidable_of_iff (beqVal a b = true) (beqVal_iff a b)


/-! # Cursor lemmas -/

theorem popRaw_pos (s : Cursor) :
    (popRaw s).2.charNo = s.charNo ∧ (popRaw s).2.lineNo = s.lineNo ∧
      (popRaw s).2.prevLineLen = s.prevLineLen := by
  obtain ⟨q, src, cn, ln, pl⟩ := s
  cases q <;> cases src <;> simp [popRaw]

theorem popRaw_fst (s : Cursor) : (popRaw s).1 = (charSeq s).headD none := by
  obtain ⟨q, src, cn, ln, pl⟩ := s
  cases q <;> cases src <;> simp [popRaw, charSeq]

theorem popRaw_charSeq (s : Cursor) : charSeq (popRaw s).2 = (charSeq s).tail := by
  obtain ⟨q, src, cn, ln, pl⟩ := s
  cases q <;> cases src <;> simp [popRaw, charSeq]

theorem popRaw_queue (s : Cursor) : (popRaw s).2.queue = s.queue.tail := by
  obtain ⟨q, src, cn, ln, pl⟩ := s
  cases q <;> cases src <;> simp [popRaw]

theorem popRaw_source (s : Cursor) :
    (popRaw s).2.source = if s.queue = [] then s.source.tail else s.source := by
  obtain ⟨q, src, cn, ln, pl⟩ := s
  cases q <;> cases src <;> simp [popRaw]

theorem getChar_fst (s : Cursor) : (getChar s).1 = (popRaw s).1 := by
  simp only [getChar]
  split_ifs <;> rfl

theorem getChar_queue (s : Cursor) : (getChar s).2.queue = (popRaw s).2.queue := by
  simp only [getChar]
  split_ifs <;> rfl

theorem getChar_source (s : Cursor) : (getChar s).2.source = (popRaw s).2.source := by
  simp only [getChar]
  split_ifs <;> rfl

theorem getChar_fst_stream (s : Cursor) : (getChar s).1 = (charSeq s).headD none := by
  rw [getChar_fst, popRaw_fst]

theorem getChar_charSeq (s : Cursor) : charSeq (getChar s).2 = (charSeq s).tail := by
  have h1 : charSeq (getChar s).2 = charSeq (popRaw s).2 := by
    unfold charSeq
    rw [getChar_queue, getChar_source]
  rw [h1, popRaw_charSeq]

theorem ungetChar_queue (c : JChar) (s : Cursor) :
    (ungetChar c s).queue = s.queue ++ [c] ∧ (ungetChar c s).source = s.source := by
  simp only [ungetChar]
  split_ifs <;> exact ⟨rfl, rfl⟩

theorem ungetAll_queue : ∀ (cs : List JChar) (s : Cursor),
    (ungetAll cs s).queue = s.queue ++ cs ∧ (ungetAll cs s).source = s.source
  | [], s => by simp [ungetAll]
  | c :: cs, s => by
    have h1 := ungetChar_queue c s
    have h2 := ungetAll_queue cs (ungetChar c s)
    simp only [ungetAll, h2.1, h2.2, h1.1, h1.2, List.append_assoc, List.cons_append,
      List.nil_append, and_self]

theorem padTake_cons (m : Nat) (x : JChar) (l : List JChar) :
    padTake (m + 1) (x :: l) = x :: padTake m l := by
  simp [padTake]

theorem padTake_nil (m : Nat) : padTake m [] = List.replicate m none := by
  simp [padTake]

theorem getN_fst : ∀ (m : Nat) (s : Cursor), (getN m s).1 = padTake m (charSeq s)
  | 0, s => by simp [getN, padTake]
  | m + 1, s => by
    have ih := getN_fst m (getChar s).2
    rw [getN]
    cases h : charSeq s with
    | nil =>
      have hc : (getChar s).1 = none := by rw [getChar_fst_stream, h]; rfl
      have ht : charSeq (getChar s).2 = [] := by rw [getChar_charSeq, h]; rfl
      simp [ih, ht, padTake_nil, hc, List.replicate_succ]
    | cons x xs =>
      have hc : (getChar s).1 = x := by rw [getChar_fst_stream, h]; rfl
      have ht : charSeq (getChar s).2 = xs := by rw [getChar_charSeq, h]; rfl
      simp [ih, ht, hc, padTake_cons]

theorem getN_fst_length (m : Nat) (s : Cursor) : (getN m s).1.length = m := by
  rw [getN_fst]
  simp only [padTake, List.length_append, List.length_take, List.length_replicate]
  omega

theorem getN_queue : ∀ (m : Nat) (s : Cursor), (getN m s).2.queue = s.queue.drop m
  | 0, s => by simp [getN]
  | m + 1, s => by
    have ih := getN_queue m (getChar s).2
    rw [getN]
    simp only [ih, getChar_queue, popRaw_queue, List.drop_tail]

theorem getN_source : ∀ (m : Nat) (s : Cursor),
    (getN m s).2.source = s.source.drop (m - s.queue.length)
  | 0, s => by simp [getN]
  | m + 1, s => by
    have ih := getN_source m (getChar s).2
    rw [getN]
    simp only [ih, getChar_source, popRaw_source, getChar_queue, popRaw_queue]
    cases hq : s.queue with
    | nil =>
      simp [hq, List.drop_tail]
    | cons a l =>
      have hne : a :: l ≠ [] := by simp
      simp only [hq, if_neg hne, List.tail_cons, List.length_cons]
      congr 1
      omega

theorem headD_eq_getD (l : List JChar) : l.headD none = l.getD 0 none := by
  cases l <;> rfl

theorem tail_getD (l : List JChar) (i : Nat) : l.tail.getD i none = l.getD (i + 1) none := by
  cases l <;> simp [List.getD]

theorem getLastD_irrel (l : List JChar) (h : l ≠ []) (a b : JChar) :
    l.getLastD a = l.getLastD b := by
  cases l with
  | nil => exact absurd rfl h
  | cons x xs => rw [List.getLastD_cons, List.getLastD_cons]

theorem getN_last : ∀ (n : Nat), 1 ≤ n → ∀ (s : Cursor),
    (getN n s).1.getLastD none = (charSeq s).getD (n - 1) none
  | 1, _, s => by
    rw [getN, getN]
    simp only [List.getLastD_cons, List.getLastD_nil]
    rw [getChar_fst_stream, headD_eq_getD]
  | n + 2, _, s => by
    have ih := getN_last (n + 1) (by omega) (getChar s).2
    rw [getN]
    have hne : (getN (n + 1) (getChar s).2).1 ≠ [] := by
      intro hcon
      have := getN_fst_length (n + 1) (getChar s).2
      rw [hcon] at this
      simp at this
    simp only [List.getLastD_cons]
    rw [getLastD_irrel _ hne _ none, ih, getChar_charSeq, tail_getD]
    norm_num

theorem padTake_append_none : ∀ (l : List JChar) (m j : Nat),
    padTake m (l ++ List.replicate j none) = padTake m l
  | [], m, j => by
    simp only [List.nil_append, padTake, List.take_replicate, List.length_replicate,
      List.take_nil, List.length_nil, Nat.sub_zero]
    rw [← List.replicate_add]
    congr 1
    omega
  | x :: xs, m, j => by
    cases m with
    | zero => simp [padTake]
    | succ m =>
      rw [List.cons_append, padTake_cons, padTake_cons, padTake_append_none xs m j]

theorem padTake_append_drop (n : Nat) (l : List JChar) :
    padTake n l ++ l.drop n = l ++ List.replicate (n - l.length) none := by
  rcases le_or_lt n l.length with h | h
  · have h0 : n - l.length = 0 := by omega
    simp only [padTake]
    rw [h0]
    simp only [List.replicate_zero, List.append_nil]
    exact List.take_append_drop n l
  · have ht : l.take n = l := List.take_of_length_le (by omega)
    have hd : l.drop n = [] := List.drop_eq_nil_of_le (by omega)
    rw [padTake, ht, hd, List.append_nil]

theorem peek_charSeq (s : Cursor) (n : Nat) (h2 : s.queue.length ≤ n) :
    charSeq (peekChar n s).2 = charSeq s ++ List.replicate (n - (charSeq s).length) none := by
  have hq := (ungetAll_queue (getN n s).1 (getN n s).2).1
  have hsrc := (ungetAll_queue (getN n s).1 (getN n s).2).2
  have hq2 : (getN n s).2.queue = [] := by
    rw [getN_queue]
    exact List.drop_eq_nil_of_le h2
  have hcs : charSeq (peekChar n s).2
      = (getN n s).1 ++ ((getN n s).2.source.map some) := by
    unfold peekChar charSeq
    rw [hq, hsrc, hq2, List.nil_append]
  rw [hcs, getN_source, getN_fst]
  have hdrop : ((s.source.drop (n - s.queue.length)).map some) = (charSeq s).drop n := by
    rw [charSeq, List.drop_append_eq_append_drop, List.drop_eq_nil_of_le h2, List.nil_append,
      List.map_drop]
  rw [hdrop]
  exact padTake_append_drop n (charSeq s)

/-- Claim C7, amended: for `n ≥ 1` and a pushback queue not longer than `n`
(so the `peek_char` loop fully drains it), `peek_char(n)` returns the n-th
lookahead character and the stream of characters that subsequent `get_char`
calls deliver is unchanged — the consumed characters replay in their original
order.  (With a longer queue, the characters pushed back behind the remaining
queue entries replay out of order; see the counterexample.) -/
theorem peekChar_spec (s : Cursor) (n : Nat) (h1 : 1 ≤ n) (h2 : s.queue.length ≤ n) :
    (peekChar n s).1 = (charSeq s).getD (n - 1) none ∧
    ∀ m : Nat, (getN m (peekChar n s).2).1 = (getN m s).1 := by
  constructor
  · show (getN n s).1.getLastD none = _
    exact getN_last n h1 s
  · intro m
    rw [getN_fst, getN_fst, peek_charSeq s n h2, padTake_append_none]

/-- Claim C7, counterexample to the claim as stated: with two characters
pending on the pushback queue, `peek_char(1)` returns the first lookahead but
re-queues it behind the second, so the subsequent `get_char` stream is
reordered — there is net consumption and no in-order replay. -/
theorem peekChar_counterexample :
    (peekChar 1 (Cursor.mk [some 'a', some 'b'] [] 0 1 0)).1 = some 'a' ∧
    (getN 2 (peekChar 1 (Cursor.mk [some 'a', some 'b'] [] 0 1 0)).2).1 ≠
      (getN 2 (Cursor.mk [some 'a', some 'b'] [] 0 1 0)).1 := by
  decide

/-- Witness for `peekChar_spec` at a concrete cursor. -/
theorem peekChar_spec_witness :
    (peekChar 1 (Cursor.init ['x', 'y'])).1 = some 'x' ∧
    (getN 3 (peekChar 1 (Cursor.init ['x', 'y'])).2).1 = (getN 3 (Cursor.init ['x', 'y'])).1 := by
  refine ⟨((peekChar_spec (Cursor.init ['x', 'y']) 1 (by decide) (by decide)).1).trans
    (by decide), (peekChar_spec (Cursor.init ['x', 'y']) 1 (by decide) (by decide)).2 3⟩

/-- Claim C8, amended: `push_back(c)` exactly reverses the position update of
the `next()` that returned `c` — newline restores the remembered previous-line
length and decrements the line, an EOF marker at column zero re-increments the
line, any other character decrements the column — in every state except the
one the counterexample exhibits: an EOF marker read at column zero with the
line counter already at its floor 1, where `get_char`'s saturating downward
correction (`line_no > 1 ? line_no-1 : 1`) did not decrement but `unget_char`
increments anyway. -/
theorem ungetChar_reverses (s : Cursor) (c : JChar) (s2 : Cursor)
    (heq : getChar s = (c, s2))
    (hx : ¬(c = none ∧ s.charNo = 0 ∧ s.lineNo ≤ 1)) :
    (ungetChar c s2).lineNo = s.lineNo ∧ (ungetChar c s2).charNo = s.charNo := by
  obtain ⟨hcn, hln, hpl⟩ := popRaw_pos s
  simp only [getChar] at heq
  split_ifs at heq with h1 h2 hlt
  · rw [Prod.mk.injEq] at heq
    obtain ⟨rfl, rfl⟩ := heq
    rw [h1]
    simp [ungetChar]
    omega
  · rw [Prod.mk.injEq] at heq
    obtain ⟨rfl, rfl⟩ := heq
    rw [h2.1]
    simp [ungetChar, h2.2]
    omega
  · rw [Prod.mk.injEq] at heq
    obtain ⟨rfl, rfl⟩ := heq
    exact absurd ⟨h2.1, by omega, by omega⟩ hx
  · rw [Prod.mk.injEq] at heq
    obtain ⟨rfl, rfl⟩ := heq
    simp [ungetChar, h1]
    omega

/-- Claim C8, counterexample to the claim as stated: in the state with empty
queue and exhausted source at line 1, column 0, `next()` returns the EOF
marker and leaves the position at (1, 0) (the downward line correction
saturates at 1), but `push_back` of that marker increments the line to 2, so
the `next()`/`push_back` pair does not restore the position. -/
theorem ungetChar_counterexample :
    getChar (Cursor.init []) = ((none : JChar), Cursor.init []) ∧
    (ungetChar (getChar (Cursor.init [])).1 (getChar (Cursor.init [])).2).lineNo = 2 ∧
    (Cursor.init []).lineNo = 1 := by
  decide

/-- Witness for `ungetChar_reverses` at a concrete cursor. -/
theorem ungetChar_reverses_witness :
    (ungetChar (some 'a') (Cursor.mk [] [] 1 1 0)).lineNo = (Cursor.init ['a']).lineNo ∧
    (ungetChar (some 'a') (Cursor.mk [] [] 1 1 0)).charNo = (Cursor.init ['a']).charNo :=
  ungetChar_reverses (Cursor.init ['a']) (some 'a') (Cursor.mk [] [] 1 1 0)
    (by decide) (by decide)

/-! # End-of-input absorption -/

theorem atEof_getChar (s : Cursor) (h : atEof s) :
    (getChar s).1 = none ∧ atEof (getChar s).2 := by
  obtain ⟨hsrc, hq⟩ := h
  refine ⟨?_, ?_, ?_⟩
  · rw [getChar_fst_stream]
    unfold charSeq
    rw [hsrc]
    simp only [List.map_nil, List.append_nil]
    cases hc : s.queue with
    | nil => rfl
    | cons x xs =>
      have := hq x (by rw [hc]; exact List.mem_cons_self x xs)
      rw [this]
      rfl
  · rw [getChar_source, popRaw_source]
    split_ifs <;> simp [hsrc]
  · rw [getChar_queue, popRaw_queue]
    intro c hc
    exact hq c (List.mem_of_mem_tail hc)

theorem atEof_getN (s : Cursor) (h : atEof s) : ∀ m : Nat,
    (getN m s).1 = List.replicate m none ∧ atEof (getN m s).2 := by
  intro m
  induction m generalizing s with
  | zero => exact ⟨rfl, h⟩
  | succ m ih =>
    obtain ⟨h1, h2⟩ := atEof_getChar s h
    obtain ⟨ih1, ih2⟩ := ih (getChar s).2 h2
    rw [getN]
    exact ⟨by rw [List.replicate_succ, ih1, h1], ih2⟩

/-- Claim C10: reading past the end of input is absorbing.  When `get_char`
reads from an exhausted source with nothing pending it returns the EOF marker
and the cursor is in the end-of-input state `atEof`; from any `atEof` state,
`get_char` returns the EOF marker and preserves `atEof` (whether the marker is
replayed from the queue or re-read from the exhausted source), `peek_char`
preserves `atEof` (it only queues further EOF markers), and every one of the
next `m` reads yields the EOF marker — never a spurious ordinary character. -/
theorem getChar_eof_absorbing :
    (∀ s : Cursor, s.queue = [] → s.source = [] →
      (getChar s).1 = none ∧ atEof (getChar s).2) ∧
    (∀ s : Cursor, atEof s → (getChar s).1 = none ∧ atEof (getChar s).2) ∧
    (∀ (s : Cursor) (n : Nat), atEof s → atEof (peekChar n s).2) ∧
    (∀ (s : Cursor) (m : Nat), atEof s → (getN m s).1 = List.replicate m none) := by
  refine ⟨?_, ?_, ?_, ?_⟩
  · intro s hq hs
    exact atEof_getChar s ⟨hs, by rw [hq]; intro c hc; cases hc⟩
  · exact atEof_getChar
  · intro s n h
    obtain ⟨h1, h2⟩ := atEof_getN s h n
    unfold peekChar
    obtain ⟨hq, hsrc⟩ := ungetAll_queue (getN n s).1 (getN n s).2
    refine ⟨?_, ?_⟩
    · rw [hsrc]
      exact h2.1
    · rw [hq]
      intro c hc
      rcases List.mem_append.mp hc with hc | hc
      · exact h2.2 c hc
      · rw [h1] at hc
        exact List.eq_of_mem_replicate hc
  · intro s m h
    exact (atEof_getN s h m).1

/-- Witness for `getChar_eof_absorbing` at concrete cursors. -/
theorem getChar_eof_absorbing_witness :
    ((getChar (Cursor.init [])).1 = none ∧ atEof (getChar (Cursor.init [])).2) ∧
    atEof (peekChar 2 (Cursor.mk [none] [] 3 1 0)).2 ∧
    (getN 2 (Cursor.mk [none] [] 3 1 0)).1 = List.replicate 2 none := by
  refine ⟨getChar_eof_absorbing.1 (Cursor.init []) rfl rfl,
    getChar_eof_absorbing.2.2.1 (Cursor.mk [none] [] 3 1 0) 2 ⟨rfl, ?_⟩,
    getChar_eof_absorbing.2.2.2 (Cursor.mk [none] [] 3 1 0) 2 ⟨rfl, ?_⟩⟩ <;>
    · intro c hc
      simp only [List.mem_singleton] at hc
      exact hc

/-! # The None sentinel and lookup policy -/

theorem applySteps_none : ∀ steps : List Step,
    applySteps JsonValue.JsonNone steps = JsonValue.JsonNone
  | [] => rfl
  | s :: tl => by
    have h : applyStep JsonValue.JsonNone s = JsonValue.JsonNone := by
      cases s <;> rfl
    rw [applySteps, h]
    exact applySteps_none tl

/-- Claim C2: indexing the None sentinel by position or by key returns the
None sentinel itself (both `JsonNone::operator[]` overloads return `*this`),
so for any document, once one lookup step yields None, every prefix of any
further chain of steps still yields None — chained lookups on an absent path
never fail, they degrade to None at every subsequent step. -/
theorem none_fixed_point :
    (∀ i : Nat, idxNat JsonValue.JsonNone i = JsonValue.JsonNone) ∧
    (∀ k : String, idxKey JsonValue.JsonNone k = JsonValue.JsonNone) ∧
    (∀ (doc : JsonValue) (s : Step) (steps : List Step) (n : Nat),
      applyStep doc s = JsonValue.JsonNone →
      applySteps (applyStep doc s) (steps.take n) = JsonValue.JsonNone) := by
  refine ⟨fun _ => rfl, fun _ => rfl, fun doc s steps n h => ?_⟩
  rw [h]
  exact applySteps_none (steps.take n)

/-- Witness for `none_fixed_point`: the spec's `doc["x"]["y"][5]` chain on a
document without key `"x"`. -/
theorem none_fixed_point_witness :
    applySteps (applyStep (JsonValue.JsonObject [("a", JsonValue.JsonTrue)]) (Step.key "x"))
      ([Step.key "y", Step.pos 5].take 2) = JsonValue.JsonNone :=
  none_fixed_point.2.2 (JsonValue.JsonObject [("a", JsonValue.JsonTrue)]) (Step.key "x")
    [Step.key "y", Step.pos 5] 2 (by decide)

/-- Claim C4: every indexing operation that cannot produce a child returns the
shared None sentinel rather than failing: by-position on an object or array
with the position at or past the size, by-key on an object with an absent
key, and either form on any leaf (string, number, boolean, null). -/
theorem idx_none_policy :
    (∀ (es : List (String × JsonValue)) (i : Nat), es.length ≤ i →
      idxNat (.JsonObject es) i = .JsonNone) ∧
    (∀ (vs : List JsonValue) (i : Nat), vs.length ≤ i →
      idxNat (.JsonArray vs) i = .JsonNone) ∧
    (∀ (es : List (String × JsonValue)) (k : String), (∀ kv ∈ es, kv.1 ≠ k) →
      idxKey (.JsonObject es) k = .JsonNone) ∧
    (∀ (s : String) (i : Nat) (k : String),
      idxNat (.JsonString s) i = .JsonNone ∧ idxKey (.JsonString s) k = .JsonNone) ∧
    (∀ (q : ℚ) (i : Nat) (k : String),
      idxNat (.JsonNumber q) i = .JsonNone ∧ idxKey (.JsonNumber q) k = .JsonNone) ∧
    (∀ (i : Nat) (k : String),
      (idxNat .JsonTrue i = .JsonNone ∧ idxKey .JsonTrue k = .JsonNone) ∧
      (idxNat .JsonFalse i = .JsonNone ∧ idxKey .JsonFalse k = .JsonNone) ∧
      (idxNat .JsonNull i = .JsonNone ∧ idxKey .JsonNull k = .JsonNone)) := by
  refine ⟨?_, ?_, ?_, ?_, ?_, ?_⟩
  · intro es i h
    rw [idxNat, dif_neg (by omega)]
  · intro vs i h
    rw [idxNat, dif_neg (by omega)]
  · intro es k h
    have hf : es.find? (fun kv => kv.1 == k) = none := by
      rw [List.find?_eq_none]
      intro kv hkv
      simpa using h kv hkv
    rw [idxKey, hf]
  · exact fun s i k => ⟨rfl, rfl⟩
  · exact fun q i k => ⟨rfl, rfl⟩
  · exact fun i k => ⟨⟨rfl, rfl⟩, ⟨rfl, rfl⟩, ⟨rfl, rfl⟩⟩

/-- Witness for `idx_none_policy` at concrete values. -/
theorem idx_none_policy_witness :
    idxNat (.JsonObject [("a", JsonValue.JsonTrue)]) 1 = .JsonNone ∧
    idxNat (.JsonArray [JsonValue.JsonNull]) 3 = .JsonNone ∧
    idxKey (.JsonObject [("a", JsonValue.JsonTrue)]) "x" = .JsonNone ∧
    idxNat (.JsonString "s") 0 = .JsonNone ∧
    idxKey (.JsonNumber 7) "k" = .JsonNone ∧
    idxNat .JsonFalse 0 = .JsonNone :=
  ⟨idx_none_policy.1 [("a", JsonValue.JsonTrue)] 1 (by decide),
   idx_none_policy.2.1 [JsonValue.JsonNull] 3 (by decide),
   idx_none_policy.2.2.1 [("a", JsonValue.JsonTrue)] "x" (by decide),
   (idx_none_policy.2.2.2.1 "s" 0 "k").1,
   (idx_none_policy.2.2.2.2.1 7 0 "k").2,
   (idx_none_policy.2.2.2.2.2 0 "k").2.1.1⟩

/-- Claim C3: `add_value` on an existing key discards the new value, emits
exactly one warning and keeps the first-seen value; on a fresh key it appends
with no warning.  In particular parsing `{"a":1,"a":2}` yields an object of
size 1 whose key `"a"` maps to the number 1, with exactly one warning emitted
in the whole parse. -/
theorem add_value_dedup :
    (∀ (es : List (String × JsonValue)) (k : String) (v : JsonValue),
      (∃ kv ∈ es, kv.1 = k) → addValue es k v = (es, 1)) ∧
    (∀ (es : List (String × JsonValue)) (k : String) (v : JsonValue),
      (∀ kv ∈ es, kv.1 ≠ k) → addValue es k v = (es ++ [(k, v)], 0)) ∧
    parseDoc ['\x7b', '"', 'a', '"', ':', '1', ',', '"', 'a', '"', ':', '2', '\x7d']
      = some (.JsonObject [("a", .JsonNumber 1)], 1) ∧
    jsize (.JsonObject [("a", .JsonNumber 1)]) = 1 ∧
    idxKey (.JsonObject [("a", .JsonNumber 1)]) "a" = .JsonNumber 1 := by
  refine ⟨?_, ?_, by with_unfolding_all decide, rfl, rfl⟩
  · intro es k v h
    rw [addValue, if_pos]
    rw [List.any_eq_true]
    obtain ⟨kv, hmem, hk⟩ := h
    exact ⟨kv, hmem, by simpa using hk⟩
  · intro es k v h
    rw [addValue, if_neg]
    rw [List.any_eq_true]
    rintro ⟨kv, hmem, hk⟩
    exact h kv hmem (by simpa using hk)

/-- Witness for `add_value_dedup` at concrete values. -/
theorem add_value_dedup_witness :
    addValue [("a", JsonValue.JsonNumber 1)] "a" (.JsonNumber 2)
      = ([("a", JsonValue.JsonNumber 1)], 1) ∧
    addValue [("a", JsonValue.JsonNumber 1)] "b" (.JsonNumber 2)
      = ([("a", JsonValue.JsonNumber 1), ("b", JsonValue.JsonNumber 2)], 0) :=
  ⟨add_value_dedup.1 [("a", JsonValue.JsonNumber 1)] "a" (.JsonNumber 2)
      ⟨("a", JsonValue.JsonNumber 1), by decide, rfl⟩,
   add_value_dedup.2.1 [("a", JsonValue.JsonNumber 1)] "b" (.JsonNumber 2)
      (by decide)⟩

/-! # Number parsing, dispatch and string escapes -/

/-- Claim C5: `number()` folds each integer and fractional digit into a
running magnitude by multiply-by-ten-and-add (`digitFold` / `fracFold`),
divides by 10 to the count of fractional digits, scales by 10 to the signed
exponent and applies the leading sign last (`numFinish`); in particular
`"-0.5e2"` parses to -50, `"0"` to 0, and `"3.1400"` to 3.14 exactly. -/
theorem number_fold_values :
    parseDoc "-0.5e2".data = some (.JsonNumber (-50), 0) ∧
    parseDoc "0".data = some (.JsonNumber 0, 0) ∧
    parseDoc "3.1400".data = some (.JsonNumber 3.14, 0) := by
  refine ⟨?_, ?_, ?_⟩ <;> with_unfolding_all decide

/-- Claim C6: when the first non-whitespace character of the input is none of
the dispatch characters of `value()` (not `{ [ " t f n`, no digit, not `-`)
— including the case of immediate end of input — the parse takes the sink's
non-returning failure path (`logger->error`) and hands no tree back; the
input `"{"` followed by end of input likewise fails (inside the object
production) with no tree. -/
theorem value_dispatch_fatal :
    (∀ input : List Char,
      (∀ c, (dropWs input).head? = some c → valueStart c = false) →
      parseDoc input = none) ∧
    parseDoc ['\x7b'] = none := by
  constructor
  · intro input h
    have hv : ∀ f : Nat, parseV f input = none := by
      intro f
      cases f with
      | zero => rfl
      | succ f =>
        simp only [parseV]
        cases hi : dropWs input with
        | nil => rfl
        | cons c rest =>
          have hc := h c (by rw [hi]; rfl)
          simp only [valueStart, Bool.or_eq_false_iff, beq_eq_false_iff_ne] at hc
          obtain ⟨⟨⟨⟨⟨⟨⟨h1, h2⟩, h3⟩, h4⟩, h5⟩, h6⟩, h7⟩, h8⟩ := hc
          simp [h1, h2, h3, h4, h5, h6, h7, h8]
    rw [parseDoc, hv]
    rfl
  · with_unfolding_all decide

/-- Witness for `value_dispatch_fatal` on an input whose first non-whitespace
character is `@`. -/
theorem value_dispatch_fatal_witness : parseDoc " @".data = none :=
  value_dispatch_fatal.1 " @".data (fun c hc => by
    have h : some '@' = some c := hc
    cases h
    rfl)

/-- Claim C9: in the string-body loop, an escape whose character is not one of
`\ / " b f n r t u` contributes no character to the output and adds exactly
one warning; a `\uXXXX` escape (four hexadecimal digits following `\u`)
consumes exactly those four characters and appends nothing; in particular
`"aAb"` parses to the two-character string `"ab"` (not `"aAb"`), with no
warning. -/
theorem string_escape_policy :
    (∀ (acc : String) (c : Char) (rest : List Char), escChar c = false →
      strBody acc ('\\' :: c :: rest)
        = (strBody acc rest).map (fun r => (r.1, r.2.1, r.2.2 + 1))) ∧
    (∀ (acc : String) (h1 h2 h3 h4 : Char) (rest : List Char),
      isHexDigit h1 = true → isHexDigit h2 = true → isHexDigit h3 = true →
      isHexDigit h4 = true →
      strBody acc ('\\' :: 'u' :: h1 :: h2 :: h3 :: h4 :: rest) = strBody acc rest) ∧
    parseDoc "\"a\\u0041b\"".data = some (.JsonString "ab", 0) := by
  refine ⟨?_, ?_, by with_unfolding_all decide⟩
  · intro acc c rest h
    simp only [escChar, Bool.or_eq_false_iff, beq_eq_false_iff_ne] at h
    obtain ⟨⟨⟨⟨⟨⟨⟨⟨h1, h2⟩, h3⟩, h4⟩, h5⟩, h6⟩, h7⟩, h8⟩, h9⟩ := h
    rw [strBody.eq_def]
    dsimp only
    rw [if_neg (by decide : ¬('\\' : Char) = '"'), if_neg (by decide : ¬('\\' : Char) = '\n'),
      if_pos (rfl : ('\\' : Char) = '\\')]
    rw [if_neg (by simp [h1, h2, h3]), if_neg h4, if_neg h5, if_neg h6, if_neg h7, if_neg h8,
      if_neg h9]
  · intro acc h1 h2 h3 h4 rest _ _ _ _
    rw [strBody.eq_def]
    dsimp only
    rfl

/-- Witness for `string_escape_policy` at concrete inputs. -/
theorem string_escape_policy_witness :
    strBody "x" ['\\', 'q', '"'] = (strBody "x" ['"']).map (fun r => (r.1, r.2.1, r.2.2 + 1)) ∧
    strBody "" ['\\', 'u', '0', '0', '4', '1', 'z', '"'] = strBody "" ['z', '"'] :=
  ⟨string_escape_policy.1 "x" 'q' ['"'] (by decide),
   string_escape_policy.2.1 "" '0' '0' '4' '1' ['z', '"']
     (by decide) (by decide) (by decide) (by decide)⟩

/-! # Decimal rationals and the exact number renderer -/

theorem divCountF_ge : ∀ (a f p n : Nat), 2 ≤ p → n ≠ 0 → p ^ a ∣ n → a ≤ f →
    a ≤ divCountF f p n
  | 0, _, _, _, _, _, _, _ => Nat.zero_le _
  | a + 1, f, p, n, hp, hn, hdvd, hf => by
    have hpn : p ∣ n := dvd_trans (dvd_pow_self p (Nat.succ_ne_zero a)) hdvd
    obtain ⟨t, rfl⟩ := hdvd
    cases f with
    | zero => omega
    | succ f =>
      rw [divCountF, if_pos ⟨hp, hn, hpn⟩]
      have hdiv : p ^ (a + 1) * t / p = p ^ a * t := by
        rw [pow_succ, Nat.mul_assoc, Nat.mul_comm p t, ← Nat.mul_assoc,
          Nat.mul_div_cancel _ (by omega : 0 < p)]
      rw [hdiv]
      have hne : p ^ a * t ≠ 0 := by
        intro hcon
        apply hn
        rw [pow_succ]
        rw [Nat.mul_assoc, Nat.mul_comm p t, ← Nat.mul_assoc, hcon]
        exact Nat.zero_mul p
      have := divCountF_ge a f p (p ^ a * t) hp hne (Dvd.intro t rfl) (by omega)
      omega

theorem den_two_five {d k : Nat} (h : d ∣ 10 ^ k) : ∃ a b, d = 2 ^ a * 5 ^ b := by
  have h10 : (10 : ℕ) ^ k = 2 ^ k * 5 ^ k := by
    rw [← Nat.mul_pow]
  rw [h10] at h
  obtain ⟨d1, d2, hd1, hd2, rfl⟩ := exists_dvd_and_dvd_of_dvd_mul h
  obtain ⟨a, _, rfl⟩ := (Nat.dvd_prime_pow Nat.prime_two).mp hd1
  obtain ⟨b, _, rfl⟩ := (Nat.dvd_prime_pow Nat.prime_five).mp hd2
  exact ⟨a, b, rfl⟩

theorem den_dvd_of_decimal {q : ℚ} (h : DecimalRat q) : ∃ k : ℕ, q.den ∣ 10 ^ k := by
  obtain ⟨z, k, hq⟩ := h
  refine ⟨k, ?_⟩
  have h1 : q = Rat.divInt z ((10 : ℤ) ^ k) := by
    rw [Rat.divInt_eq_div, hq]
    norm_cast
  have hdvd := Rat.den_dvd z ((10 : ℤ) ^ k)
  rw [← h1] at hdvd
  exact_mod_cast hdvd

/-- The power of ten `printNum` scales by. -/
def printK (q : ℚ) : Nat :=
  max (divCountF q.den 2 q.den) (divCountF q.den 5 q.den)

theorem den_dvd_printK (q : ℚ) (h : DecimalRat q) : q.den ∣ 10 ^ printK q := by
  obtain ⟨k, hk⟩ := den_dvd_of_decimal h
  obtain ⟨a, b, hab⟩ := den_two_five hk
  have hden : q.den ≠ 0 := q.den_nz
  have h2a : 2 ^ a ∣ q.den := hab ▸ Dvd.intro _ rfl
  have h5b : 5 ^ b ∣ q.den := hab ▸ Dvd.intro _ (Nat.mul_comm _ _)
  have ha2 : 2 ^ a ≤ q.den := Nat.le_of_dvd (Nat.pos_of_ne_zero hden) h2a
  have hb5 : 5 ^ b ≤ q.den := Nat.le_of_dvd (Nat.pos_of_ne_zero hden) h5b
  have ha : a ≤ divCountF q.den 2 q.den :=
    divCountF_ge a q.den 2 q.den (by omega) hden h2a
      (by have := Nat.lt_two_pow a; omega)
  have hb : b ≤ divCountF q.den 5 q.den := by
    refine divCountF_ge b q.den 5 q.den (by omega) hden h5b ?_
    have h1 : b < 2 ^ b := Nat.lt_two_pow b
    have h2 : (2 : ℕ) ^ b ≤ 5 ^ b := Nat.pow_le_pow_left (by omega) b
    omega
  have h10K : (10 : ℕ) ^ printK q = 2 ^ printK q * 5 ^ printK q := by
    rw [← Nat.mul_pow]
  rw [h10K, hab]
  exact Nat.mul_dvd_mul (pow_dvd_pow 2 (le_trans ha (Nat.le_max_left _ _)))
    (pow_dvd_pow 5 (le_trans hb (Nat.le_max_right _ _)))

theorem ofLE_natDigitsF : ∀ (f n : Nat), n ≤ f → ofLE (natDigitsF f n) = n
  | 0, n, h => by
    have : n = 0 := by omega
    subst this
    rfl
  | f + 1, n, h => by
    rw [natDigitsF]
    split_ifs with h0
    · rw [h0]; rfl
    · rw [ofLE, ofLE_natDigitsF f (n / 10) (by omega)]
      omega

theorem natDigitsF_lt : ∀ (f n : Nat), ∀ d ∈ natDigitsF f n, d < 10
  | 0, n => by intro d hd; cases hd
  | f + 1, n => by
    intro d hd
    rw [natDigitsF] at hd
    split_ifs at hd with h0
    · cases hd
    · rcases List.mem_cons.mp hd with h | h
      · omega
      · exact natDigitsF_lt f (n / 10) d h

theorem natDigitsF_len : ∀ (f n k : Nat), n ≤ f → n < 10 ^ k → (natDigitsF f n).length ≤ k
  | 0, n, k, hf, hk => by
    have : n = 0 := by omega
    subst this
    exact Nat.zero_le k
  | f + 1, n, k, hf, hk => by
    rw [natDigitsF]
    split_ifs with h0
    · exact Nat.zero_le k
    · cases k with
      | zero =>
        rw [pow_zero] at hk
        omega
      | succ k =>
        rw [List.length_cons]
        have hlt : n / 10 < 10 ^ k := by
          rw [Nat.div_lt_iff_lt_mul (by omega : 0 < 10)]
          calc n < 10 ^ (k + 1) := hk
          _ = 10 ^ k * 10 := by rw [pow_succ]
        have := natDigitsF_len f (n / 10) k (by omega) hlt
        omega

theorem natDigitsF_last : ∀ (f n : Nat), 1 ≤ n → n ≤ f →
    ∃ d l, natDigitsF f n = l ++ [d] ∧ 1 ≤ d ∧ d < 10
  | 0, n, h1, hf => by omega
  | f + 1, n, h1, hf => by
    rw [natDigitsF, if_neg (by omega : ¬n = 0)]
    rcases Nat.lt_or_ge n 10 with h10 | h10
    · have hq : n / 10 = 0 := Nat.div_eq_of_lt h10
      rw [hq]
      have hz : ∀ g : Nat, natDigitsF g 0 = [] := by
        intro g
        cases g with
        | zero => rfl
        | succ g => rw [natDigitsF, if_pos rfl]
      rw [hz f]
      exact ⟨n % 10, [], rfl, by omega, by omega⟩
    · obtain ⟨d, l, heq, hd1, hd2⟩ :=
        natDigitsF_last f (n / 10) (by omega) (by omega)
      exact ⟨d, n % 10 :: l, by rw [heq, List.cons_append], hd1, hd2⟩

theorem toDigitChar_toNat {d : Nat} (h : d < 10) : (toDigitChar d).toNat = 48 + d := by
  interval_cases d <;> decide

theorem isDig_toDigitChar {d : Nat} (h : d < 10) : isDig (toDigitChar d) = true := by
  interval_cases d <;> decide

theorem oneNine_toDigitChar {d : Nat} (h1 : 1 ≤ d) (h2 : d < 10) :
    (decide ('1' ≤ toDigitChar d) && decide (toDigitChar d ≤ '9')) = true := by
  interval_cases d <;> decide

/-- A digit character is none of the parser's structural characters. -/
theorem isDig_props {c : Char} (h : isDig c = true) :
    c ≠ '{' ∧ c ≠ '[' ∧ c ≠ '"' ∧ c ≠ 't' ∧ c ≠ 'f' ∧ c ≠ 'n' ∧ c ≠ '-' ∧
      isWs c = false ∧ c ≠ '.' ∧ c ≠ 'e' ∧ c ≠ 'E' ∧ c ≠ '\n' := by
  have hws : isWs c = false := by
    by_contra hws
    simp only [Bool.not_eq_false, isWs, Bool.or_eq_true, beq_iff_eq] at hws
    rcases hws with ((rfl | rfl) | rfl) | rfl <;> exact absurd h (by decide)
  refine ⟨?_, ?_, ?_, ?_, ?_, ?_, ?_, hws, ?_, ?_, ?_, ?_⟩ <;>
    · intro hcon
      rw [hcon] at h
      exact absurd h (by decide)

/-- The digit-run step of the parser: the loop is a left fold over a maximal
run of digit characters, stopping exactly at the first non-digit. -/
theorem digitFold_append : ∀ (ds : List Char) (v : ℚ) (rest : List Char),
    (∀ c ∈ ds, isDig c = true) → (∀ c, rest.head? = some c → isDig c = false) →
    digitFold v (ds ++ rest)
      = (ds.foldl (fun a c => a * 10 + ((c.toNat - 48 : ℕ) : ℚ)) v, rest)
  | [], v, rest, _, hrest => by
    cases rest with
    | nil => rfl
    | cons c r =>
      rw [List.nil_append, digitFold, if_neg (by simp [hrest c rfl]), List.foldl_nil]
  | d :: ds, v, rest, hds, hrest => by
    rw [List.cons_append, digitFold, if_pos (hds d (List.mem_cons_self d ds)),
      List.foldl_cons, digitFold_append ds _ rest (fun c hc => hds c (List.mem_cons_of_mem d hc))
        hrest]

theorem fracFold_append : ∀ (ds : List Char) (v : ℚ) (fs : ℕ) (rest : List Char),
    (∀ c ∈ ds, isDig c = true) → (∀ c, rest.head? = some c → isDig c = false) →
    fracFold v fs (ds ++ rest)
      = (ds.foldl (fun a c => a * 10 + ((c.toNat - 48 : ℕ) : ℚ)) v, fs * 10 ^ ds.length, rest)
  | [], v, fs, rest, _, hrest => by
    cases rest with
    | nil => simp [fracFold]
    | cons c r =>
      rw [List.nil_append, fracFold, if_neg (by simp [hrest c rfl]), List.foldl_nil]
      simp
  | d :: ds, v, fs, rest, hds, hrest => by
    rw [List.cons_append, fracFold, if_pos (hds d (List.mem_cons_self d ds)),
      List.foldl_cons, fracFold_append ds _ _ rest (fun c hc => hds c (List.mem_cons_of_mem d hc))
        hrest]
    rw [List.length_cons, pow_succ]
    rw [Prod.mk.injEq, Prod.mk.injEq]
    refine ⟨rfl, by ring, rfl⟩

/-- The rational digit fold is the cast of the natural digit fold. -/
theorem foldl_digit_cast : ∀ (ds : List Char) (n : ℕ),
    ds.foldl (fun a c => a * 10 + ((c.toNat - 48 : ℕ) : ℚ)) (n : ℚ)
      = ((ds.foldl foldStep n : ℕ) : ℚ)
  | [], n => by simp
  | c :: ds, n => by
    rw [List.foldl_cons, List.foldl_cons]
    have hstep : ((n : ℚ) * 10 + ((c.toNat - 48 : ℕ) : ℚ))
        = ((foldStep n c : ℕ) : ℚ) := by
      rw [foldStep]
      push_cast
      ring
    rw [hstep, foldl_digit_cast ds (foldStep n c)]

theorem foldStep_replicate_zero : ∀ (j a : Nat),
    (List.replicate j '0').foldl foldStep a = a * 10 ^ j
  | 0, a => by simp
  | j + 1, a => by
    rw [List.replicate_succ, List.foldl_cons, foldStep_replicate_zero j]
    show (a * 10 + ('0'.toNat - 48)) * 10 ^ j = a * 10 ^ (j + 1)
    have : '0'.toNat - 48 = 0 := by decide
    rw [this, pow_succ]
    ring

theorem foldStep_rev_digits : ∀ (l : List Nat) (a : Nat), (∀ d ∈ l, d < 10) →
    (l.reverse.map toDigitChar).foldl foldStep a = a * 10 ^ l.length + ofLE l
  | [], a, _ => by simp [ofLE]
  | d :: l, a, hl => by
    rw [List.reverse_cons, List.map_append, List.foldl_append,
      foldStep_rev_digits l a (fun x hx => hl x (List.mem_cons_of_mem d hx))]
    rw [List.map_singleton, List.foldl_cons, List.foldl_nil, foldStep,
      toDigitChar_toNat (hl d (List.mem_cons_self d l))]
    rw [List.length_cons, ofLE, pow_succ]
    have : 48 + d - 48 = d := by omega
    rw [this]
    ring

theorem digitsOf_all_dig (n : ℕ) : ∀ c ∈ digitsOf n, isDig c = true := by
  intro c hc
  rw [digitsOf] at hc
  split_ifs at hc with h0
  · rw [List.mem_singleton] at hc
    rw [hc]
    decide
  · obtain ⟨d, hd, rfl⟩ := List.mem_map.mp hc
    exact isDig_toDigitChar (natDigitsF_lt n n d (List.mem_reverse.mp hd))

theorem digitsOf_foldStep (n : ℕ) : (digitsOf n).foldl foldStep 0 = n := by
  rw [digitsOf]
  split_ifs with h0
  · rw [h0]
    decide
  · rw [foldStep_rev_digits (natDigitsF n n) 0 (natDigitsF_lt n n),
      ofLE_natDigitsF n n (le_refl n)]
    ring

theorem digitsOf_ne_nil (n : ℕ) : digitsOf n ≠ [] := by
  rw [digitsOf]
  split_ifs with h0
  · simp
  · obtain ⟨d, l, heq, _, _⟩ := natDigitsF_last n n (by omega) (le_refl n)
    rw [heq]
    simp

theorem digitsOf_head19 (n : ℕ) (h : 1 ≤ n) : ∃ c t, digitsOf n = c :: t ∧
    (decide ('1' ≤ c) && decide (c ≤ '9')) = true := by
  obtain ⟨d, l, heq, hd1, hd2⟩ := natDigitsF_last n n h (le_refl n)
  refine ⟨toDigitChar d, l.reverse.map toDigitChar, ?_, oneNine_toDigitChar hd1 hd2⟩
  rw [digitsOf, if_neg (by omega), heq, List.reverse_append, List.reverse_singleton,
    List.singleton_append, List.map_cons]

theorem fracDigits_all_dig (r k : ℕ) : ∀ c ∈ fracDigits r k, isDig c = true := by
  intro c hc
  rw [fracDigits] at hc
  rcases List.mem_append.mp hc with hc | hc
  · rw [List.eq_of_mem_replicate hc]
    decide
  · obtain ⟨d, hd, rfl⟩ := List.mem_map.mp hc
    exact isDig_toDigitChar (natDigitsF_lt r r d (List.mem_reverse.mp hd))

theorem fracDigits_length (r k : ℕ) (h : r < 10 ^ k) : (fracDigits r k).length = k := by
  have hlen := natDigitsF_len r r k (le_refl r) h
  rw [fracDigits]
  simp only [List.length_append, List.length_replicate, List.length_map, List.length_reverse]
  omega

theorem fracDigits_foldStep (r k : ℕ) (h : r < 10 ^ k) (a : ℕ) :
    (fracDigits r k).foldl foldStep a = a * 10 ^ k + r := by
  have hlen := natDigitsF_len r r k (le_refl r) h
  rw [fracDigits, List.foldl_append, foldStep_replicate_zero,
    foldStep_rev_digits (natDigitsF r r) _ (natDigitsF_lt r r),
    ofLE_natDigitsF r r (le_refl r)]
  rw [Nat.mul_assoc, ← pow_add]
  congr 3
  omega

theorem negSplit_not {c : Char} (r : List Char) (h : c ≠ '-') :
    negSplit (c :: r) = (false, c :: r) := by
  rw [negSplit.eq_def]
  split
  · rename_i heq
    injection heq with h1 h2
    exact absurd h1 h
  · rfl

theorem numAfterInt_stop (neg : Bool) (v : ℚ) (r : List Char)
    (h : ∀ c, r.head? = some c → c ≠ '.') :
    numAfterInt neg v r = numAfterFrac neg (v / ((1 : ℕ) : ℚ)) r := by
  cases r with
  | nil => rfl
  | cons c r2 =>
    rw [numAfterInt.eq_def]
    split
    · rename_i heq
      injection heq with h1 h2
      exact absurd h1 (h c rfl)
    · rfl

theorem numAfterFrac_stop (neg : Bool) (v : ℚ) (r : List Char)
    (h : ∀ c, r.head? = some c → c ≠ 'e' ∧ c ≠ 'E') :
    numAfterFrac neg v r = some (numFinish neg v, r) := by
  cases r with
  | nil => rfl
  | cons c r2 =>
    rw [numAfterFrac.eq_def]
    dsimp only
    rw [if_neg]
    rintro (rfl | rfl)
    · exact absurd rfl (h 'e' rfl).1
    · exact absurd rfl (h 'E' rfl).2

theorem numStop_head {rest : List Char} (h : numStop rest = true) :
    ∀ c, rest.head? = some c → isDig c = false ∧ c ≠ '.' ∧ c ≠ 'e' ∧ c ≠ 'E' := by
  intro c hc
  cases rest with
  | nil => cases hc
  | cons d r =>
    have hd : d = c := by
      injection hc
    subst hd
    simp only [numStop, Bool.not_eq_true', Bool.or_eq_false_iff, beq_eq_false_iff_ne] at h
    exact ⟨h.1.1.1, h.1.1.2, h.1.2, h.2⟩

theorem parseNumCore_digits (neg : Bool) (n : ℕ) (r1 : List Char)
    (h : ∀ c, r1.head? = some c → isDig c = false) :
    parseNumCore neg (digitsOf n ++ r1) = numAfterInt neg ((n : ℕ) : ℚ) r1 := by
  rcases Nat.eq_zero_or_pos n with rfl | hn
  · show parseNumCore neg ('0' :: r1) = _
    rw [parseNumCore, if_neg (by decide), if_pos rfl]
    norm_num
  · obtain ⟨c, t, heq, h19⟩ := digitsOf_head19 n hn
    have hdigs : ∀ x ∈ t, isDig x = true :=
      fun x hx => digitsOf_all_dig n x (heq ▸ List.mem_cons_of_mem c hx)
    rw [heq, List.cons_append, parseNumCore, if_pos h19]
    rw [digitFold_append t _ r1 hdigs h]
    have hv : ((c.toNat - 48 : ℕ) : ℚ) = ((foldStep 0 c : ℕ) : ℚ) := by
      rw [foldStep]
      norm_num
    rw [hv, foldl_digit_cast t (foldStep 0 c)]
    have hval : t.foldl foldStep (foldStep 0 c) = n := by
      have hfull := digitsOf_foldStep n
      rw [heq, List.foldl_cons] at hfull
      exact hfull
    rw [hval]

theorem parseNumCore_printBody (neg : Bool) (m K : ℕ) (rest : List Char)
    (hrest : numStop rest = true) :
    parseNumCore neg
        ((if K = 0 then digitsOf m
          else digitsOf (m / 10 ^ K) ++ '.' :: fracDigits (m % 10 ^ K) K) ++ rest)
      = some (numFinish neg ((m : ℚ) / 10 ^ K), rest) := by
  have hstop := numStop_head hrest
  split_ifs with hK
  · subst hK
    rw [parseNumCore_digits neg m rest (fun c hc => (hstop c hc).1),
      numAfterInt_stop neg _ rest (fun c hc => (hstop c hc).2.1),
      numAfterFrac_stop neg _ rest (fun c hc => (hstop c hc).2.2)]
    norm_num
  · have hKpos : 1 ≤ K := by omega
    have hmod : m % 10 ^ K < 10 ^ K := Nat.mod_lt _ (Nat.pos_pow_of_pos K (by omega))
    rw [List.append_assoc, List.cons_append,
      parseNumCore_digits neg (m / 10 ^ K) _ (fun c hc => by
        have hcd : c = '.' := (Option.some.inj hc).symm
        rw [hcd]
        decide)]
    rw [numAfterInt]
    rw [fracFold_append (fracDigits (m % 10 ^ K) K) _ 1 rest
      (fracDigits_all_dig (m % 10 ^ K) K) (fun c hc => (hstop c hc).1)]
    rw [fracDigits_length (m % 10 ^ K) K hmod]
    have hfs : ¬(1 * 10 ^ K = 1) := by
      have : (10 : ℕ) ^ K ≥ 10 ^ 1 := Nat.pow_le_pow_right (by omega) hKpos
      omega
    rw [if_neg hfs]
    rw [foldl_digit_cast, fracDigits_foldStep (m % 10 ^ K) K hmod]
    have hdm : m / 10 ^ K * 10 ^ K + m % 10 ^ K = m := by
      rw [Nat.mul_comm]
      exact Nat.div_add_mod m (10 ^ K)
    rw [hdm]
    rw [numAfterFrac_stop neg _ rest (fun c hc => (hstop c hc).2.2)]
    have hcast : ((1 * 10 ^ K : ℕ) : ℚ) = (10 : ℚ) ^ K := by push_cast; ring
    rw [hcast]

theorem mantissa_abs (q : ℚ) (hden : q.den ∣ 10 ^ printK q) :
    ((q.num.natAbs * 10 ^ printK q / q.den : ℕ) : ℚ) / 10 ^ printK q = |q| := by
  have hd : q.den ∣ q.num.natAbs * 10 ^ printK q := Dvd.dvd.mul_left hden q.num.natAbs
  have hm : q.num.natAbs * 10 ^ printK q / q.den * q.den = q.num.natAbs * 10 ^ printK q :=
    Nat.div_mul_cancel hd
  have hmq : ((q.num.natAbs * 10 ^ printK q / q.den : ℕ) : ℚ) * (q.den : ℚ)
      = (q.num.natAbs : ℚ) * 10 ^ printK q := by
    exact_mod_cast congrArg (fun x : ℕ => (x : ℚ)) hm
  have habs : |q| = (q.num.natAbs : ℚ) / (q.den : ℚ) := by
    have h1 : ((q.num.natAbs : ℕ) : ℚ) = |(q.num : ℚ)| := by
      rw [Int.cast_natAbs, Int.cast_abs]
    rw [h1, ← abs_of_pos (by exact_mod_cast q.den_pos : (0 : ℚ) < (q.den : ℚ)),
      ← abs_div, Rat.num_div_den]
  have hden0 : (q.den : ℚ) ≠ 0 := by
    exact_mod_cast q.den_nz
  have hpow0 : ((10 : ℚ) ^ printK q) ≠ 0 := by positivity
  rw [habs, div_eq_div_iff hpow0 hden0]
  linarith [hmq]

theorem digitsOf_append_head (n : ℕ) (Y : List Char) :
    ∃ c t, digitsOf n ++ Y = c :: t ∧ isDig c = true := by
  cases hdg : digitsOf n with
  | nil => exact absurd hdg (digitsOf_ne_nil n)
  | cons c t =>
    exact ⟨c, t ++ Y, by rw [List.cons_append],
      digitsOf_all_dig n c (hdg ▸ List.mem_cons_self c t)⟩

theorem parseNumber_of_digit (c : Char) (t : List Char) (h : isDig c = true) :
    parseNumber (c :: t) = parseNumCore false (c :: t) := by
  show parseNumCore (negSplit (c :: t)).1 (negSplit (c :: t)).2 = parseNumCore false (c :: t)
  rw [negSplit_not t (isDig_props h).2.2.2.2.2.2.1]

/-- The exact renderer `printNum` is inverted by `number()`: for every decimal
rational and every remainder that cannot extend the number, parsing the
rendered form yields the value back exactly. -/
theorem parseNumber_printNum (q : ℚ) (hq : DecimalRat q) (rest : List Char)
    (hrest : numStop rest = true) :
    parseNumber (printNum q ++ rest) = some (q, rest) := by
  have hden := den_dvd_printK q hq
  have hkey := mantissa_abs q hden
  have hprint : printNum q
      = (if q < 0 then ['-'] else []) ++
        (if printK q = 0 then digitsOf (q.num.natAbs * 10 ^ printK q / q.den)
         else digitsOf (q.num.natAbs * 10 ^ printK q / q.den / 10 ^ printK q) ++
           '.' :: fracDigits (q.num.natAbs * 10 ^ printK q / q.den % 10 ^ printK q)
             (printK q)) := rfl
  have hbody := parseNumCore_printBody false
      (q.num.natAbs * 10 ^ printK q / q.den) (printK q) rest hrest
  have hbodyT := parseNumCore_printBody true
      (q.num.natAbs * 10 ^ printK q / q.den) (printK q) rest hrest
  rcases lt_or_le q 0 with hq0 | hq0
  · rw [hprint, if_pos hq0, List.append_assoc, List.singleton_append]
    unfold parseNumber
    simp only [negSplit]
    rw [hbodyT, hkey]
    rw [numFinish, if_pos rfl, abs_of_neg hq0, neg_neg]
  · have hhead : ∃ c t, (if printK q = 0 then digitsOf (q.num.natAbs * 10 ^ printK q / q.den)
         else digitsOf (q.num.natAbs * 10 ^ printK q / q.den / 10 ^ printK q) ++
           '.' :: fracDigits (q.num.natAbs * 10 ^ printK q / q.den % 10 ^ printK q)
             (printK q)) ++ rest = c :: t ∧ isDig c = true := by
      split_ifs with hK
      · exact digitsOf_append_head _ rest
      · rw [List.append_assoc]
        exact digitsOf_append_head _ _
    obtain ⟨c, t, heq2, hcd⟩ := hhead
    rw [hprint, if_neg (not_lt.mpr hq0), List.nil_append, heq2,
      parseNumber_of_digit c t hcd, ← heq2, hbody, hkey]
    rw [numFinish, if_neg (by simp), abs_of_nonneg hq0]

/-! # Whitespace, literal and string round-trip lemmas -/

theorem dropWs_cons_of_ws {c : Char} (l : List Char) (h : isWs c = true) :
    dropWs (c :: l) = dropWs l := by
  simp [dropWs, List.dropWhile_cons, h]

theorem dropWs_cons_of_not {c : Char} (l : List Char) (h : isWs c = false) :
    dropWs (c :: l) = c :: l := by
  simp [dropWs, List.dropWhile_cons, h]

theorem dropWs_idem (l : List Char) : dropWs (dropWs l) = dropWs l := by
  induction l with
  | nil => rfl
  | cons c l ih =>
    cases hc : isWs c with
    | true => rw [dropWs_cons_of_ws l hc, ih]
    | false => rw [dropWs_cons_of_not l hc, dropWs_cons_of_not l hc]

theorem dropWs_ws_append : ∀ (p : List Char), (∀ c ∈ p, isWs c = true) →
    ∀ l : List Char, dropWs (p ++ l) = dropWs l
  | [], _, l => rfl
  | c :: p, h, l => by
    rw [List.cons_append, dropWs_cons_of_ws _ (h c (List.mem_cons_self c p)),
      dropWs_ws_append p (fun x hx => h x (List.mem_cons_of_mem c hx)) l]

theorem padding_ws (d : Nat) : ∀ c ∈ padding d, isWs c = true := by
  intro c hc
  rw [List.eq_of_mem_replicate hc]
  rfl

theorem dropWs_padding (d : Nat) (l : List Char) : dropWs (padding d ++ l) = dropWs l :=
  dropWs_ws_append (padding d) (padding_ws d) l

theorem parseV_dropWs (f : Nat) (l : List Char) : parseV f (dropWs l) = parseV f l := by
  cases f with
  | zero => rfl
  | succ f =>
    rw [parseV, parseV, dropWs_idem]

theorem parseObjLoop_dropWs (pv : List Char → Option (JsonValue × List Char × Nat))
    (g : Nat) (acc : List (String × JsonValue)) (w : Nat) (l : List Char) :
    parseObjLoop pv g acc w (dropWs l) = parseObjLoop pv g acc w l := by
  cases g with
  | zero => rfl
  | succ g =>
    rw [parseObjLoop, parseObjLoop, dropWs_idem]

theorem parseArrLoop_dropWs (pv : List Char → Option (JsonValue × List Char × Nat))
    (hpv : ∀ l : List Char, pv (dropWs l) = pv l)
    (g : Nat) (vs : List JsonValue) (w : Nat) (l : List Char) :
    parseArrLoop pv g vs w (dropWs l) = parseArrLoop pv g vs w l := by
  cases g with
  | zero => rfl
  | succ g =>
    rw [parseArrLoop, parseArrLoop, hpv]

theorem matchLit_self : ∀ (cs rest : List Char), matchLit cs (cs ++ rest) = some rest
  | [], rest => rfl
  | c :: cs, rest => by
    rw [List.cons_append, matchLit, if_pos rfl, matchLit_self cs rest]

theorem strBody_print : ∀ (cs : List Char) (acc : String) (rest : List Char),
    (∀ c ∈ cs, c ≠ '"' ∧ c ≠ '\\' ∧ c ≠ '\n') →
    strBody acc (cs ++ '"' :: rest) = some (⟨acc.data ++ cs⟩, rest, 0)
  | [], acc, rest, _ => by
    rw [List.nil_append, List.append_nil, strBody.eq_def]
    dsimp only
    rw [if_pos rfl]
  | c :: cs, acc, rest, h => by
    have hc := h c (List.mem_cons_self c cs)
    rw [List.cons_append, strBody.eq_def]
    dsimp only
    rw [if_neg hc.1, if_neg hc.2.2, if_neg hc.2.1,
      strBody_print cs (acc.push c) rest (fun x hx => h x (List.mem_cons_of_mem c hx))]
    have hp : (acc.push c).data = acc.data ++ [c] := rfl
    rw [hp, List.append_assoc, List.singleton_append]

theorem strOk_chars {s : String} (h : strOkB s = true) :
    ∀ c ∈ s.data, c ≠ '"' ∧ c ≠ '\\' ∧ c ≠ '\n' := by
  intro c hc
  rw [strOkB, List.all_eq_true] at h
  have := h c hc
  simp only [Bool.not_eq_true', Bool.or_eq_false_iff, beq_eq_false_iff_ne] at this
  exact ⟨this.1.1, this.1.2, this.2⟩

theorem parseStr_print (s : String) (rest : List Char) (h : strOkB s = true) :
    parseStr ('"' :: (s.data ++ '"' :: rest)) = some (s, rest, 0) := by
  show strBody "" (s.data ++ '"' :: rest) = _
  rw [strBody_print s.data "" rest (strOk_chars h)]
  show some (⟨s.data⟩, rest, 0) = some (s, rest, 0)
  cases s
  rfl

/-! # Loop step lemmas -/

theorem pv_ws_append (pv : List Char → Option (JsonValue × List Char × Nat))
    (hdw : ∀ l : List Char, pv (dropWs l) = pv l)
    (p : List Char) (hp : ∀ c ∈ p, isWs c = true) (X : List Char) :
    pv (p ++ X) = pv X := by
  rw [← hdw (p ++ X), dropWs_ws_append p hp, hdw]

theorem addValue_not_mem (es : List (String × JsonValue)) (k : String) (v : JsonValue)
    (h : k ∉ es.map Prod.fst) : addValue es k v = (es ++ [(k, v)], 0) := by
  rw [addValue, if_neg]
  intro hc
  rw [List.any_eq_true] at hc
  obtain ⟨kv, hkv, hbeq⟩ := hc
  rw [beq_iff_eq] at hbeq
  exact h (hbeq ▸ List.mem_map_of_mem Prod.fst hkv)

theorem needFuelEntries_mem :
    ∀ {es : List (String × JsonValue)}, ∀ kv ∈ es, needFuel kv.2 < needFuelEntries es := by
  intro es
  induction es with
  | nil => intro kv h; exact absurd h (List.not_mem_nil kv)
  | cons hd tl ih =>
    intro kv h
    obtain ⟨a, b⟩ := hd
    rcases List.mem_cons.mp h with rfl | h2
    · simp only [needFuelEntries]
      omega
    · have := ih kv h2
      simp only [needFuelEntries]
      omega

theorem needFuelItems_mem :
    ∀ {vs : List JsonValue}, ∀ v ∈ vs, needFuel v < needFuelItems vs := by
  intro vs
  induction vs with
  | nil => intro v h; exact absurd h (List.not_mem_nil v)
  | cons hd tl ih =>
    intro v h
    rcases List.mem_cons.mp h with rfl | h2
    · simp only [needFuelItems]
      omega
    · have := ih v h2
      simp only [needFuelItems]
      omega

theorem shapedEntries_mem :
    ∀ {es : List (String × JsonValue)}, ParserShapedEntries es →
      ∀ kv ∈ es, ParserShaped kv.2 := by
  intro es
  induction es with
  | nil => intro _ kv h; exact absurd h (List.not_mem_nil kv)
  | cons hd tl ih =>
    obtain ⟨a, b⟩ := hd
    intro hse kv h
    rcases List.mem_cons.mp h with rfl | h2
    · exact hse.1
    · exact ih hse.2 kv h2

theorem shapedItems_mem :
    ∀ {vs : List JsonValue}, ParserShapedItems vs → ∀ v ∈ vs, ParserShaped v := by
  intro vs
  induction vs with
  | nil => intro _ v h; exact absurd h (List.not_mem_nil v)
  | cons hd tl ih =>
    intro hsi v h
    rcases List.mem_cons.mp h with rfl | h2
    · exact hsi.1
    · exact ih hsi.2 v h2

theorem goodEntries_mem :
    ∀ {es : List (String × JsonValue)}, goodStringsEntries es = true →
      ∀ kv ∈ es, goodStrings kv.2 = true := by
  intro es
  induction es with
  | nil => intro _ kv h; exact absurd h (List.not_mem_nil kv)
  | cons hd tl ih =>
    obtain ⟨a, b⟩ := hd
    intro hg kv h
    simp only [goodStringsEntries, Bool.and_eq_true] at hg
    rcases List.mem_cons.mp h with rfl | h2
    · exact hg.1.2
    · exact ih hg.2 kv h2

theorem goodItems_mem :
    ∀ {vs : List JsonValue}, goodStringsItems vs = true →
      ∀ v ∈ vs, goodStrings v = true := by
  intro vs
  induction vs with
  | nil => intro _ v h; exact absurd h (List.not_mem_nil v)
  | cons hd tl ih =>
    intro hg v h
    simp only [goodStringsItems, Bool.and_eq_true] at hg
    rcases List.mem_cons.mp h with rfl | h2
    · exact hg.1
    · exact ih hg.2 v h2

theorem parseObjLoop_cont (pv : List Char → Option (JsonValue × List Char × Nat))
    (g : Nat) (acc : List (String × JsonValue)) (w : Nat)
    (input r1 r2 r4 : List Char) (k : String) (v : JsonValue)
    (h1 : parseStr (dropWs input) = some (k, r1, 0))
    (h2 : dropWs r1 = ':' :: r2)
    (h3 : pv r2 = some (v, ',' :: r4, 0)) :
    parseObjLoop pv (g + 1) acc w input =
      parseObjLoop pv g (addValue acc k v).1 (w + (addValue acc k v).2) r4 := by
  rw [parseObjLoop, h1]
  simp only []
  rw [h2]
  simp only []
  rw [h3]
  rfl

theorem parseObjLoop_close (pv : List Char → Option (JsonValue × List Char × Nat))
    (g : Nat) (acc : List (String × JsonValue)) (w : Nat)
    (input r1 r2 r4 : List Char) (k : String) (v : JsonValue)
    (h1 : parseStr (dropWs input) = some (k, r1, 0))
    (h2 : dropWs r1 = ':' :: r2)
    (h3 : pv r2 = some (v, '}' :: r4, 0)) :
    parseObjLoop pv (g + 1) acc w input =
      some (.JsonObject (addValue acc k v).1, r4, w + (addValue acc k v).2) := by
  rw [parseObjLoop, h1]
  simp only []
  rw [h2]
  simp only []
  rw [h3]
  rfl

theorem parseArrLoop_cont (pv : List Char → Option (JsonValue × List Char × Nat))
    (g : Nat) (vs : List JsonValue) (w : Nat) (input r2 : List Char) (v : JsonValue)
    (h1 : pv input = some (v, ',' :: r2, 0)) :
    parseArrLoop pv (g + 1) vs w input = parseArrLoop pv g (vs ++ [v]) w r2 := by
  rw [parseArrLoop, h1]
  rfl

theorem parseArrLoop_close (pv : List Char → Option (JsonValue × List Char × Nat))
    (g : Nat) (vs : List JsonValue) (w : Nat) (input r2 : List Char) (v : JsonValue)
    (h1 : pv input = some (v, ']' :: r2, 0)) :
    parseArrLoop pv (g + 1) vs w input = some (.JsonArray (vs ++ [v]), r2, w) := by
  rw [parseArrLoop, h1]
  rfl

theorem parseObjStart_empty (pv : List Char → Option (JsonValue × List Char × Nat))
    (f : Nat) (r r2 : List Char) (h : dropWs r = '}' :: r2) :
    parseObjStart pv f ('{' :: r) = some (.JsonObject [], r2, 0) := by
  rw [parseObjStart.eq_def]
  simp only []
  rw [h]
  rfl

theorem parseObjStart_go (pv : List Char → Option (JsonValue × List Char × Nat))
    (f : Nat) (r : List Char) (c : Char) (T : List Char)
    (h : dropWs r = c :: T) (hc : c ≠ '}') :
    parseObjStart pv f ('{' :: r) = parseObjLoop pv f [] 0 (c :: T) := by
  rw [parseObjStart.eq_def]
  simp only []
  rw [h]
  split
  · next r2 heq =>
    injection heq with hh _
    exact absurd hh hc
  · rfl

theorem parseArrStart_empty (pv : List Char → Option (JsonValue × List Char × Nat))
    (f : Nat) (r r2 : List Char) (h : dropWs r = ']' :: r2) :
    parseArrStart pv f ('[' :: r) = some (.JsonArray [], r2, 0) := by
  rw [parseArrStart.eq_def]
  simp only []
  rw [h]
  rfl

theorem parseArrStart_go (pv : List Char → Option (JsonValue × List Char × Nat))
    (f : Nat) (r : List Char) (c : Char) (T : List Char)
    (h : dropWs r = c :: T) (hc : c ≠ ']') :
    parseArrStart pv f ('[' :: r) = parseArrLoop pv f [] 0 (c :: T) := by
  rw [parseArrStart.eq_def]
  simp only []
  rw [h]
  split
  · next r2 heq =>
    injection heq with hh _
    exact absurd hh hc
  · rfl

/-! # Round-trip of the member and element loops -/

theorem rtItems (d : Nat) :
    ∀ (vs : List JsonValue) (acc : List JsonValue) (w g : Nat) (rest : List Char)
      (pv : List Char → Option (JsonValue × List Char × Nat)),
      vs ≠ [] →
      needFuelItems vs ≤ g →
      (∀ v ∈ vs, ∀ rest2 : List Char, numStop rest2 = true →
        pv (printVal v (d + 1) ++ rest2) = some (v, dropWs rest2, 0)) →
      (∀ l : List Char, pv (dropWs l) = pv l) →
      parseArrLoop pv g acc w (printItems vs d ++ (padding d ++ ']' :: rest)) =
        some (.JsonArray (acc ++ vs), rest, w) := by
  intro vs
  induction vs with
  | nil => intro _ _ _ _ _ hne; exact absurd rfl hne
  | cons v tl ih =>
    intro acc w g rest pv _ hg hpv hdw
    simp only [needFuelItems] at hg
    cases g with
    | zero => omega
    | succ g =>
    rcases tl with _ | ⟨v2, tl2⟩
    · have hinp : printItems [v] d ++ (padding d ++ ']' :: rest)
          = padding (d + 1) ++ (printVal v (d + 1) ++ ('\n' :: (padding d ++ ']' :: rest))) := by
        simp [printItems, List.append_assoc]
      have hst : numStop ('\n' :: (padding d ++ ']' :: rest)) = true := rfl
      have h1 : pv (printItems [v] d ++ (padding d ++ ']' :: rest)) = some (v, ']' :: rest, 0) := by
        rw [hinp, pv_ws_append pv hdw (padding (d + 1)) (padding_ws _) _,
          hpv v (List.mem_cons_self v []) _ hst,
          @dropWs_cons_of_ws '\n' _ rfl, dropWs_padding, @dropWs_cons_of_not ']' _ rfl]
      rw [parseArrLoop_close pv g acc w _ _ v h1]
    · have hinp : printItems (v :: v2 :: tl2) d ++ (padding d ++ ']' :: rest)
          = padding (d + 1) ++ (printVal v (d + 1) ++
              (',' :: '\n' :: (printItems (v2 :: tl2) d ++ (padding d ++ ']' :: rest)))) := by
        rw [printItems]
        simp only [List.isEmpty_cons]
        rw [if_neg Bool.false_ne_true]
        simp only [List.cons_append, List.append_assoc, List.nil_append]
      have hst : numStop (',' :: '\n' :: (printItems (v2 :: tl2) d ++ (padding d ++ ']' :: rest)))
          = true := rfl
      have h1 : pv (printItems (v :: v2 :: tl2) d ++ (padding d ++ ']' :: rest))
          = some (v, ',' :: ('\n' :: (printItems (v2 :: tl2) d ++ (padding d ++ ']' :: rest))), 0) := by
        rw [hinp, pv_ws_append pv hdw (padding (d + 1)) (padding_ws _) _,
          hpv v (List.mem_cons_self v _) _ hst,
          @dropWs_cons_of_not ',' _ rfl]
      rw [parseArrLoop_cont pv g acc w _ _ v h1,
        ← parseArrLoop_dropWs pv hdw g (acc ++ [v]) w ('\n' :: _),
        @dropWs_cons_of_ws '\n' _ rfl,
        parseArrLoop_dropWs pv hdw,
        ih (acc ++ [v]) w g rest pv (List.cons_ne_nil v2 tl2) (by omega)
          (fun u hu => hpv u (List.mem_cons_of_mem v hu)) hdw,
        List.append_assoc, List.singleton_append]

theorem rtEntries (d : Nat) :
    ∀ (es : List (String × JsonValue)) (acc : List (String × JsonValue)) (w g : Nat)
      (rest : List Char) (pv : List Char → Option (JsonValue × List Char × Nat)),
      es ≠ [] →
      goodStringsEntries es = true →
      ((acc ++ es).map Prod.fst).Nodup →
      needFuelEntries es ≤ g →
      (∀ (k0 : String) (v0 : JsonValue), (k0, v0) ∈ es → ∀ rest2 : List Char,
        numStop rest2 = true →
        pv (printVal v0 (d + 1) ++ rest2) = some (v0, dropWs rest2, 0)) →
      (∀ l : List Char, pv (dropWs l) = pv l) →
      parseObjLoop pv g acc w (printEntries es d ++ (padding d ++ '}' :: rest)) =
        some (.JsonObject (acc ++ es), rest, w) := by
  intro es
  induction es with
  | nil => intro _ _ _ _ _ hne; exact absurd rfl hne
  | cons kv tl ih =>
    obtain ⟨k, v⟩ := kv
    intro acc w g rest pv _ hgs hnd hg hpv hdw
    simp only [goodStringsEntries, Bool.and_eq_true] at hgs
    obtain ⟨⟨hk, hv⟩, htl⟩ := hgs
    simp only [needFuelEntries] at hg
    cases g with
    | zero => omega
    | succ g =>
    have hknotin : k ∉ acc.map Prod.fst := by
      intro hmem
      rw [List.map_append, List.nodup_append] at hnd
      exact hnd.2.2 hmem (by simp only [List.map_cons]; exact List.mem_cons_self k _)
    rcases tl with _ | ⟨kv2, tl2⟩
    · have hinp : printEntries [(k, v)] d ++ (padding d ++ '}' :: rest)
          = padding (d + 1) ++ ('"' :: (k.data ++ '"' :: ':' :: ' ' ::
              (printVal v (d + 1) ++ ('\n' :: (padding d ++ '}' :: rest))))) := by
        simp [printEntries, List.append_assoc]
      have h1 : parseStr (dropWs (printEntries [(k, v)] d ++ (padding d ++ '}' :: rest)))
          = some (k, ':' :: ' ' :: (printVal v (d + 1) ++ ('\n' :: (padding d ++ '}' :: rest))), 0) := by
        rw [hinp, dropWs_padding, @dropWs_cons_of_not '"' _ rfl]
        exact parseStr_print k _ hk
      have h2 : dropWs (':' :: ' ' :: (printVal v (d + 1) ++ ('\n' :: (padding d ++ '}' :: rest))))
          = ':' :: (' ' :: (printVal v (d + 1) ++ ('\n' :: (padding d ++ '}' :: rest)))) :=
        @dropWs_cons_of_not ':' _ rfl
      have hst : numStop ('\n' :: (padding d ++ '}' :: rest)) = true := rfl
      have h3 : pv (' ' :: (printVal v (d + 1) ++ ('\n' :: (padding d ++ '}' :: rest))))
          = some (v, '}' :: rest, 0) := by
        rw [← List.singleton_append,
          pv_ws_append pv hdw [' '] (by decide) _,
          hpv k v (List.mem_cons_self (k, v) []) _ hst,
          @dropWs_cons_of_ws '\n' _ rfl, dropWs_padding, @dropWs_cons_of_not '}' _ rfl]
      rw [parseObjLoop_close pv g acc w _ _ _ _ k v h1 h2 h3,
        addValue_not_mem acc k v hknotin]
      rfl
    · have hinp : printEntries ((k, v) :: kv2 :: tl2) d ++ (padding d ++ '}' :: rest)
          = padding (d + 1) ++ ('"' :: (k.data ++ '"' :: ':' :: ' ' ::
              (printVal v (d + 1) ++ (',' :: '\n' ::
                (printEntries (kv2 :: tl2) d ++ (padding d ++ '}' :: rest)))))) := by
        rw [printEntries]
        simp only [List.isEmpty_cons]
        rw [if_neg Bool.false_ne_true]
        simp only [List.cons_append, List.append_assoc, List.nil_append]
      have h1 : parseStr (dropWs (printEntries ((k, v) :: kv2 :: tl2) d ++ (padding d ++ '}' :: rest)))
          = some (k, ':' :: ' ' :: (printVal v (d + 1) ++ (',' :: '\n' ::
              (printEntries (kv2 :: tl2) d ++ (padding d ++ '}' :: rest)))), 0) := by
        rw [hinp, dropWs_padding, @dropWs_cons_of_not '"' _ rfl]
        exact parseStr_print k _ hk
      have h2 : dropWs (':' :: ' ' :: (printVal v (d + 1) ++ (',' :: '\n' ::
            (printEntries (kv2 :: tl2) d ++ (padding d ++ '}' :: rest)))))
          = ':' :: (' ' :: (printVal v (d + 1) ++ (',' :: '\n' ::
              (printEntries (kv2 :: tl2) d ++ (padding d ++ '}' :: rest))))) :=
        @dropWs_cons_of_not ':' _ rfl
      have hst : numStop (',' :: '\n' ::
          (printEntries (kv2 :: tl2) d ++ (padding d ++ '}' :: rest))) = true := rfl
      have h3 : pv (' ' :: (printVal v (d + 1) ++ (',' :: '\n' ::
            (printEntries (kv2 :: tl2) d ++ (padding d ++ '}' :: rest)))))
          = some (v, ',' :: ('\n' ::
              (printEntries (kv2 :: tl2) d ++ (padding d ++ '}' :: rest))), 0) := by
        rw [← List.singleton_append,
          pv_ws_append pv hdw [' '] (by decide) _,
          hpv k v (List.mem_cons_self (k, v) _) _ hst,
          @dropWs_cons_of_not ',' _ rfl]
      rw [parseObjLoop_cont pv g acc w _ _ _ _ k v h1 h2 h3,
        addValue_not_mem acc k v hknotin]
      dsimp only
      rw [Nat.add_zero,
        ← parseObjLoop_dropWs pv g (acc ++ [(k, v)]) w ('\n' :: _),
        @dropWs_cons_of_ws '\n' _ rfl,
        parseObjLoop_dropWs pv g,
        ih (acc ++ [(k, v)]) w g rest pv (List.cons_ne_nil kv2 tl2) htl
          (by rw [List.append_assoc, List.singleton_append]; exact hnd)
          (by omega)
          (fun k0 v0 hmem => hpv k0 v0 (List.mem_cons_of_mem (k, v) hmem)) hdw,
        List.append_assoc, List.singleton_append]

/-! # Head characters of rendered values -/

theorem printNum_head (q : ℚ) :
    ∃ c T, printNum q = c :: T ∧ (isDig c = true ∨ c = '-') := by
  simp only [printNum]
  by_cases hneg : q < 0
  · rw [if_pos hneg]
    exact ⟨'-', _, rfl, Or.inr rfl⟩
  · rw [if_neg hneg, List.nil_append]
    by_cases hk : max (divCountF q.den 2 q.den) (divCountF q.den 5 q.den) = 0
    · rw [if_pos hk]
      obtain ⟨c, t, hct⟩ := List.exists_cons_of_ne_nil (digitsOf_ne_nil _)
      exact ⟨c, t, hct, Or.inl (digitsOf_all_dig _ c (by rw [hct]; exact List.mem_cons_self c t))⟩
    · rw [if_neg hk]
      obtain ⟨c, t, hct⟩ := List.exists_cons_of_ne_nil (digitsOf_ne_nil _)
      rw [hct]
      exact ⟨c, _, rfl, Or.inl (digitsOf_all_dig _ c (by rw [hct]; exact List.mem_cons_self c t))⟩

theorem isDig_not_ws_close {c : Char} (h : isDig c = true) : c ≠ ']' ∧ c ≠ '}' := by
  constructor <;> (intro hcon; rw [hcon] at h; exact absurd h (by decide))

/-- The first character of a rendered value is never whitespace and never a
closing bracket, so the member and element loops cannot mistake a value for
the end of the aggregate. -/
theorem printVal_head (v : JsonValue) (d : Nat) (hsh : ParserShaped v) :
    ∃ c T, printVal v d = c :: T ∧ isWs c = false ∧ c ≠ ']' := by
  cases v with
  | JsonObject es => exact ⟨'{', _, rfl, rfl, by decide⟩
  | JsonArray vs => exact ⟨'[', _, rfl, rfl, by decide⟩
  | JsonString s => exact ⟨'"', _, rfl, rfl, by decide⟩
  | JsonNumber q =>
    obtain ⟨c, T, hct, hc⟩ := printNum_head q
    refine ⟨c, T, hct, ?_, ?_⟩
    · rcases hc with h | rfl
      · exact (isDig_props h).2.2.2.2.2.2.2.1
      · rfl
    · rcases hc with h | rfl
      · exact (isDig_not_ws_close h).1
      · decide
  | JsonTrue => exact ⟨'t', _, rfl, rfl, by decide⟩
  | JsonFalse => exact ⟨'f', _, rfl, rfl, by decide⟩
  | JsonNull => exact ⟨'n', _, rfl, rfl, by decide⟩
  | JsonNone =>
    simp only [ParserShaped] at hsh

/-! # A member-wise induction principle for trees -/

/-- Induction over `JsonValue` with member-level hypotheses for the two
aggregate constructors, by well-founded recursion on `sizeOf`. -/
theorem JsonValue.recMem (P : JsonValue → Prop)
    (hobj : ∀ es, (∀ kv ∈ es, P kv.2) → P (.JsonObject es))
    (harr : ∀ vs, (∀ v ∈ vs, P v) → P (.JsonArray vs))
    (hstr : ∀ s, P (.JsonString s))
    (hnum : ∀ q, P (.JsonNumber q))
    (htru : P .JsonTrue) (hfls : P .JsonFalse) (hnul : P .JsonNull)
    (hnon : P .JsonNone) : ∀ t, P t
  | .JsonObject es =>
    hobj es (fun kv hkv =>
      JsonValue.recMem P hobj harr hstr hnum htru hfls hnul hnon kv.2)
  | .JsonArray vs =>
    harr vs (fun v hv =>
      JsonValue.recMem P hobj harr hstr hnum htru hfls hnul hnon v)
  | .JsonString s => hstr s
  | .JsonNumber q => hnum q
  | .JsonTrue => htru
  | .JsonFalse => hfls
  | .JsonNull => hnul
  | .JsonNone => hnon
termination_by t => sizeOf t
decreasing_by
  · have h1 := List.sizeOf_lt_of_mem hkv
    obtain ⟨a, b⟩ := kv
    simp only [Prod.mk.sizeOf_spec] at h1
    simp only [JsonValue.JsonObject.sizeOf_spec]
    omega
  · have h1 := List.sizeOf_lt_of_mem hv
    simp only [JsonValue.JsonArray.sizeOf_spec]
    omega

/-! # Round-trip of a rendered tree through the value parser -/

theorem rtVal :
    ∀ (t : JsonValue) (d f : Nat) (rest : List Char),
      ParserShaped t → goodStrings t = true → needFuel t ≤ f → numStop rest = true →
      parseV f (printVal t d ++ rest) = some (t, dropWs rest, 0) := by
  intro t
  induction t using JsonValue.recMem with
  | hstr s =>
    intro d f rest _ hgs hfl hstop
    simp only [goodStrings] at hgs
    simp only [needFuel] at hfl
    cases f with
    | zero => omega
    | succ g =>
      rw [printVal]
      simp only [List.cons_append, List.append_assoc, List.singleton_append, List.nil_append]
      simp only [parseV]
      rw [@dropWs_cons_of_not '"' _ rfl]
      simp only []
      rw [if_neg (by decide : ¬('"' : Char) = '{'), if_neg (by decide : ¬('"' : Char) = '['),
        if_pos trivial, parseStr_print s rest hgs]
      rfl
  | hnum q =>
    intro d f rest hsh _ hfl hstop
    simp only [ParserShaped] at hsh
    simp only [needFuel] at hfl
    cases f with
    | zero => omega
    | succ g =>
      rw [printVal]
      obtain ⟨c, T, hct, hc⟩ := printNum_head q
      have hinputEq : printNum q ++ rest = c :: (T ++ rest) := by
        rw [hct]
        rfl
      simp only [parseV]
      rw [hinputEq]
      rcases hc with hdig | rfl
      · have hp := isDig_props hdig
        rw [dropWs_cons_of_not _ hp.2.2.2.2.2.2.2.1]
        simp only []
        rw [if_neg hp.1, if_neg hp.2.1, if_neg hp.2.2.1, if_neg hp.2.2.2.1,
          if_neg hp.2.2.2.2.1, if_neg hp.2.2.2.2.2.1, hdig, Bool.true_or, if_pos rfl,
          ← hinputEq, parseNumber_printNum q hsh rest hstop]
        rfl
      · rw [@dropWs_cons_of_not '-' _ rfl]
        simp only []
        rw [if_neg (by decide : ¬('-' : Char) = '{'), if_neg (by decide : ¬('-' : Char) = '['),
          if_neg (by decide : ¬('-' : Char) = '"'), if_neg (by decide : ¬('-' : Char) = 't'),
          if_neg (by decide : ¬('-' : Char) = 'f'), if_neg (by decide : ¬('-' : Char) = 'n'),
          if_pos (by decide : (isDig '-' || decide True) = true),
          ← hinputEq, parseNumber_printNum q hsh rest hstop]
        rfl
  | htru =>
    intro d f rest _ _ hfl hstop
    simp only [needFuel] at hfl
    cases f with
    | zero => omega
    | succ g =>
      have he : "true".data ++ rest = 't' :: ("rue".data ++ rest) := rfl
      rw [printVal]
      simp only [parseV]
      rw [he, @dropWs_cons_of_not 't' _ rfl]
      simp only []
      rw [if_neg (by decide : ¬('t' : Char) = '{'), if_neg (by decide : ¬('t' : Char) = '['),
        if_neg (by decide : ¬('t' : Char) = '"'), if_pos trivial, ← he,
        matchLit_self "true".data rest]
      rfl
  | hfls =>
    intro d f rest _ _ hfl hstop
    simp only [needFuel] at hfl
    cases f with
    | zero => omega
    | succ g =>
      have he : "false".data ++ rest = 'f' :: ("alse".data ++ rest) := rfl
      rw [printVal]
      simp only [parseV]
      rw [he, @dropWs_cons_of_not 'f' _ rfl]
      simp only []
      rw [if_neg (by decide : ¬('f' : Char) = '{'), if_neg (by decide : ¬('f' : Char) = '['),
        if_neg (by decide : ¬('f' : Char) = '"'), if_neg (by decide : ¬('f' : Char) = 't'),
        if_pos trivial, ← he, matchLit_self "false".data rest]
      rfl
  | hnul =>
    intro d f rest _ _ hfl hstop
    simp only [needFuel] at hfl
    cases f with
    | zero => omega
    | succ g =>
      have he : "null".data ++ rest = 'n' :: ("ull".data ++ rest) := rfl
      rw [printVal]
      simp only [parseV]
      rw [he, @dropWs_cons_of_not 'n' _ rfl]
      simp only []
      rw [if_neg (by decide : ¬('n' : Char) = '{'), if_neg (by decide : ¬('n' : Char) = '['),
        if_neg (by decide : ¬('n' : Char) = '"'), if_neg (by decide : ¬('n' : Char) = 't'),
        if_neg (by decide : ¬('n' : Char) = 'f'), if_pos trivial, ← he,
        matchLit_self "null".data rest]
      rfl
  | hnon =>
    intro d f rest hsh _ _ _
    simp only [ParserShaped] at hsh
  | hobj es ih =>
    intro d f rest hsh hgs hfl hstop
    simp only [ParserShaped] at hsh
    simp only [goodStrings] at hgs
    simp only [needFuel] at hfl
    cases f with
    | zero => omega
    | succ g =>
      rw [printVal]
      simp only [List.cons_append, List.append_assoc, List.singleton_append, List.nil_append]
      simp only [parseV]
      rw [@dropWs_cons_of_not '{' _ rfl]
      simp only []
      rw [if_pos trivial]
      rcases es with _ | ⟨⟨k1, v1⟩, tl⟩
      · simp only [printEntries, List.nil_append]
        rw [parseObjStart_empty (parseV g) g _ rest (by
          rw [@dropWs_cons_of_ws '\n' _ rfl, dropWs_padding,
            @dropWs_cons_of_not '}' _ rfl])]
        rfl
      · have hpvs : ∀ (k0 : String) (v0 : JsonValue), (k0, v0) ∈ (k1, v1) :: tl →
            ∀ rest2 : List Char, numStop rest2 = true →
            parseV g (printVal v0 (d + 1) ++ rest2) = some (v0, dropWs rest2, 0) :=
          fun k0 v0 hmem rest2 hstop2 =>
            ih (k0, v0) hmem (d + 1) g rest2
              (shapedEntries_mem hsh.2 (k0, v0) hmem)
              (goodEntries_mem hgs (k0, v0) hmem)
              (by have := needFuelEntries_mem (k0, v0) hmem; omega) hstop2
        have hloop : parseObjLoop (parseV g) g [] 0
            (dropWs ('\n' :: (printEntries ((k1, v1) :: tl) d ++ (padding d ++ '}' :: rest))))
            = some (.JsonObject ((k1, v1) :: tl), rest, 0) := by
          rw [@dropWs_cons_of_ws '\n' _ rfl, parseObjLoop_dropWs,
            rtEntries d ((k1, v1) :: tl) [] 0 g rest (parseV g)
              (List.cons_ne_nil _ _) hgs (by simpa using hsh.1) (by omega)
              hpvs (parseV_dropWs g), List.nil_append]
        have hdr : dropWs ('\n' :: (printEntries ((k1, v1) :: tl) d ++ (padding d ++ '}' :: rest)))
            = '"' :: (k1.data ++ '"' :: ':' :: ' ' :: (printVal v1 (d + 1) ++
                ((if tl.isEmpty then ['\n'] else [',', '\n']) ++
                  (printEntries tl d ++ (padding d ++ '}' :: rest))))) := by
          rw [@dropWs_cons_of_ws '\n' _ rfl, printEntries]
          simp only [List.cons_append, List.append_assoc, List.nil_append]
          rw [dropWs_padding, @dropWs_cons_of_not '"' _ rfl]
        rw [parseObjStart_go (parseV g) g _ '"' _ hdr (by decide), ← hdr, hloop]
        rfl
  | harr vs ih =>
    intro d f rest hsh hgs hfl hstop
    simp only [ParserShaped] at hsh
    simp only [goodStrings] at hgs
    simp only [needFuel] at hfl
    cases f with
    | zero => omega
    | succ g =>
      rw [printVal]
      simp only [List.cons_append, List.append_assoc, List.singleton_append, List.nil_append]
      simp only [parseV]
      rw [@dropWs_cons_of_not '[' _ rfl]
      simp only []
      rw [if_neg (by decide : ¬('[' : Char) = '{'), if_pos trivial]
      rcases vs with _ | ⟨v1, tl⟩
      · simp only [printItems, List.nil_append]
        rw [parseArrStart_empty (parseV g) g _ rest (by
          rw [@dropWs_cons_of_ws '\n' _ rfl, dropWs_padding,
            @dropWs_cons_of_not ']' _ rfl])]
        rfl
      · have hpvs : ∀ v0 ∈ v1 :: tl, ∀ rest2 : List Char, numStop rest2 = true →
            parseV g (printVal v0 (d + 1) ++ rest2) = some (v0, dropWs rest2, 0) :=
          fun v0 hmem rest2 hstop2 =>
            ih v0 hmem (d + 1) g rest2
              (shapedItems_mem hsh v0 hmem)
              (goodItems_mem hgs v0 hmem)
              (by have := needFuelItems_mem v0 hmem; omega) hstop2
        have hloop : parseArrLoop (parseV g) g [] 0
            (dropWs ('\n' :: (printItems (v1 :: tl) d ++ (padding d ++ ']' :: rest))))
            = some (.JsonArray (v1 :: tl), rest, 0) := by
          rw [@dropWs_cons_of_ws '\n' _ rfl, parseArrLoop_dropWs (parseV g) (parseV_dropWs g),
            rtItems d (v1 :: tl) [] 0 g rest (parseV g)
              (List.cons_ne_nil _ _) (by omega) hpvs (parseV_dropWs g), List.nil_append]
        obtain ⟨c, T, hct, hcw, hcne⟩ :=
          printVal_head v1 (d + 1) (shapedItems_mem hsh v1 (List.mem_cons_self v1 tl))
        have hdr : dropWs ('\n' :: (printItems (v1 :: tl) d ++ (padding d ++ ']' :: rest)))
            = c :: (T ++ ((if tl.isEmpty then ['\n'] else [',', '\n']) ++
                (printItems tl d ++ (padding d ++ ']' :: rest)))) := by
          rw [@dropWs_cons_of_ws '\n' _ rfl, printItems]
          simp only [List.cons_append, List.append_assoc, List.nil_append]
          rw [dropWs_padding, hct]
          simp only [List.cons_append]
          rw [dropWs_cons_of_not _ hcw]
        rw [parseArrStart_go (parseV g) g _ c _ hdr hcne, ← hdr, hloop]
        rfl

/-! # The rendered length bounds the fuel requirement -/

mutual

theorem needFuel_le_print : ∀ (t : JsonValue) (d : Nat),
    needFuel t ≤ (printVal t d).length + 1
  | .JsonObject es, d => by
    have h := needFuelEntries_le_print es d
    simp only [needFuel, printVal, List.length_cons, List.length_append]
    omega
  | .JsonArray vs, d => by
    have h := needFuelItems_le_print vs d
    simp only [needFuel, printVal, List.length_cons, List.length_append]
    omega
  | .JsonString s, d => by
    simp only [needFuel]
    omega
  | .JsonNumber q, d => by
    simp only [needFuel]
    omega
  | .JsonTrue, d => by
    simp only [needFuel]
    omega
  | .JsonFalse, d => by
    simp only [needFuel]
    omega
  | .JsonNull, d => by
    simp only [needFuel]
    omega
  | .JsonNone, d => by
    simp only [needFuel]
    omega
termination_by t d => sizeOf t

theorem needFuelEntries_le_print : ∀ (es : List (String × JsonValue)) (d : Nat),
    needFuelEntries es ≤ (printEntries es d).length
  | [], _ => by
    simp [needFuelEntries, printEntries]
  | (k, v) :: tl, d => by
    have h1 := needFuel_le_print v (d + 1)
    have h2 := needFuelEntries_le_print tl d
    have hpad : (padding (d + 1)).length = (d + 1) * 2 := List.length_replicate _ _
    simp only [needFuelEntries, printEntries, List.length_append, List.length_cons]
    split_ifs <;> simp only [List.length_cons, List.length_nil] <;> omega
termination_by es d => sizeOf es

theorem needFuelItems_le_print : ∀ (vs : List JsonValue) (d : Nat),
    needFuelItems vs ≤ (printItems vs d).length
  | [], _ => by
    simp [needFuelItems, printItems]
  | v :: tl, d => by
    have h1 := needFuel_le_print v (d + 1)
    have h2 := needFuelItems_le_print tl d
    have hpad : (padding (d + 1)).length = (d + 1) * 2 := List.length_replicate _ _
    simp only [needFuelItems, printItems, List.length_append, List.length_cons]
    split_ifs <;> simp only [List.length_cons, List.length_nil] <;> omega
termination_by vs d => sizeOf vs

end

/-! # Every parsed number is a decimal rational -/

theorem decimal_natCast (n : ℕ) : DecimalRat ((n : ℤ) : ℚ) :=
  ⟨n, 0, by norm_num⟩

theorem decimal_neg {q : ℚ} (h : DecimalRat q) : DecimalRat (-q) := by
  obtain ⟨z, k, rfl⟩ := h
  exact ⟨-z, k, by push_cast; ring⟩

theorem decimal_numFinish (neg : Bool) {q : ℚ} (h : DecimalRat q) :
    DecimalRat (numFinish neg q) := by
  rw [numFinish]
  split_ifs
  · exact decimal_neg h
  · exact h

theorem decimal_step {q : ℚ} (n : ℕ) (h : DecimalRat q) :
    DecimalRat (q * 10 + ((n : ℕ) : ℚ)) := by
  obtain ⟨z, k, rfl⟩ := h
  refine ⟨z * 10 + n * 10 ^ k, k, ?_⟩
  have hk : ((10 : ℚ) ^ k) ≠ 0 := by positivity
  field_simp

theorem decimal_div_pow {q : ℚ} (j : ℕ) (h : DecimalRat q) : DecimalRat (q / 10 ^ j) := by
  obtain ⟨z, k, rfl⟩ := h
  exact ⟨z, k + j, by rw [pow_add, ← div_div]⟩

theorem decimal_mul_pow {q : ℚ} (j : ℕ) (h : DecimalRat q) : DecimalRat (q * 10 ^ j) := by
  obtain ⟨z, k, rfl⟩ := h
  refine ⟨z * 10 ^ j, k, ?_⟩
  push_cast
  ring

theorem decimal_div_natpow {q : ℚ} (j : ℕ) (h : DecimalRat q) :
    DecimalRat (q / ((10 ^ j : ℕ) : ℚ)) := by
  have hc : ((10 ^ j : ℕ) : ℚ) = 10 ^ j := by
    push_cast
    ring
  rw [hc]
  exact decimal_div_pow j h

theorem digitFold_decimal : ∀ (l : List Char) (v : ℚ), DecimalRat v →
    DecimalRat (digitFold v l).1
  | [], v, h => h
  | c :: rest, v, h => by
    rw [digitFold]
    split_ifs with hc
    · exact digitFold_decimal rest _ (decimal_step _ h)
    · exact h

theorem fracFold_decimal : ∀ (l : List Char) (v : ℚ) (fs : ℕ), DecimalRat v →
    DecimalRat (fracFold v fs l).1
  | [], v, fs, h => h
  | c :: rest, v, fs, h => by
    rw [fracFold]
    split_ifs with hc
    · exact fracFold_decimal rest _ _ (decimal_step _ h)
    · exact h

theorem fracFold_pow : ∀ (l : List Char) (v : ℚ) (fs : ℕ), (∃ j : ℕ, fs = 10 ^ j) →
    ∃ j : ℕ, (fracFold v fs l).2.1 = 10 ^ j
  | [], v, fs, h => h
  | c :: rest, v, fs, h => by
    rw [fracFold]
    split_ifs with hc
    · obtain ⟨j, rfl⟩ := h
      exact fracFold_pow rest _ _ ⟨j + 1, by rw [pow_succ]⟩
    · exact h

theorem numAfterFrac_decimal (neg : Bool) (v : ℚ) (r : List Char) (q : ℚ) (r2 : List Char)
    (hv : DecimalRat v) (h : numAfterFrac neg v r = some (q, r2)) : DecimalRat q := by
  rw [numAfterFrac.eq_def] at h
  rcases r with _ | ⟨c, r3⟩
  · dsimp only at h
    simp only [Option.some.injEq, Prod.mk.injEq] at h
    exact h.1 ▸ decimal_numFinish neg hv
  · dsimp only at h
    split_ifs at h with he
    · rcases r3 with _ | ⟨c2, r4⟩
      · exact Option.noConfusion h
      · dsimp only at h
        split at h
        · exact Option.noConfusion h
        · split_ifs at h
          all_goals try exact Option.noConfusion h
          all_goals
            simp only [Option.some.injEq, Prod.mk.injEq] at h
            refine h.1 ▸ decimal_numFinish neg ?_
            first
              | exact decimal_div_pow _ hv
              | exact decimal_mul_pow _ hv
    · simp only [Option.some.injEq, Prod.mk.injEq] at h
      exact h.1 ▸ decimal_numFinish neg hv

theorem numAfterInt_decimal (neg : Bool) (v : ℚ) (r : List Char) (q : ℚ) (r2 : List Char)
    (hv : DecimalRat v) (h : numAfterInt neg v r = some (q, r2)) : DecimalRat q := by
  rw [numAfterInt.eq_def] at h
  split at h
  · rename_i r3
    dsimp only at h
    split_ifs at h with hfs
    all_goals try exact Option.noConfusion h
    obtain ⟨j, hj⟩ := fracFold_pow r3 v 1 ⟨0, by norm_num⟩
    rw [hj] at h
    exact numAfterFrac_decimal neg _ _ q r2
      (decimal_div_natpow j (fracFold_decimal r3 v 1 hv)) h
  · refine numAfterFrac_decimal neg _ _ q r2 ?_ h
    have hone : (((1 : ℕ)) : ℚ) = 1 := by norm_num
    rw [hone, div_one]
    exact hv

theorem parseNumCore_decimal (neg : Bool) (input : List Char) (q : ℚ) (r : List Char)
    (h : parseNumCore neg input = some (q, r)) : DecimalRat q := by
  rw [parseNumCore.eq_def] at h
  rcases input with _ | ⟨c, rest⟩
  · exact Option.noConfusion h
  · dsimp only at h
    split_ifs at h with h1 h2
    all_goals try exact Option.noConfusion h
    · exact numAfterInt_decimal neg _ _ q r
        (digitFold_decimal rest _ (decimal_natCast _)) h
    · exact numAfterInt_decimal neg _ _ q r ⟨0, 0, by norm_num⟩ h

theorem parseNumber_decimal (input : List Char) (q : ℚ) (r : List Char)
    (h : parseNumber input = some (q, r)) : DecimalRat q :=
  parseNumCore_decimal _ _ q r h

/-! # Every tree the parser emits is parser-shaped -/

theorem addValue_key_iff (es : List (String × JsonValue)) (k : String) :
    es.any (fun kv => kv.1 == k) = true ↔ k ∈ es.map Prod.fst := by
  rw [List.any_eq_true]
  simp only [beq_iff_eq, List.mem_map]

theorem addValue_nodup (es : List (String × JsonValue)) (k : String) (v : JsonValue)
    (h : (es.map Prod.fst).Nodup) : ((addValue es k v).1.map Prod.fst).Nodup := by
  rw [addValue]
  split_ifs with hmem
  · exact h
  · rw [List.map_append, List.nodup_append]
    refine ⟨h, by simp, ?_⟩
    intro a ha hb
    simp only [List.map_cons, List.map_nil, List.mem_singleton] at hb
    rw [hb] at ha
    exact hmem ((addValue_key_iff es k).mpr ha)

theorem shapedEntries_append : ∀ (es : List (String × JsonValue)) (k : String) (v : JsonValue),
    ParserShapedEntries es → ParserShaped v → ParserShapedEntries (es ++ [(k, v)])
  | [], _, _, _, hv => ⟨hv, trivial⟩
  | (a, b) :: tl, k, v, hse, hv =>
    ⟨hse.1, shapedEntries_append tl k v hse.2 hv⟩

theorem shapedItems_append : ∀ (vs : List JsonValue) (v : JsonValue),
    ParserShapedItems vs → ParserShaped v → ParserShapedItems (vs ++ [v])
  | [], _, _, hv => ⟨hv, trivial⟩
  | a :: tl, v, hsi, hv => ⟨hsi.1, shapedItems_append tl v hsi.2 hv⟩

theorem addValue_shapedE (es : List (String × JsonValue)) (k : String) (v : JsonValue)
    (hse : ParserShapedEntries es) (hv : ParserShaped v) :
    ParserShapedEntries (addValue es k v).1 := by
  rw [addValue]
  split_ifs
  · exact hse
  · exact shapedEntries_append es k v hse hv

theorem parseObjLoop_shaped (pv : List Char → Option (JsonValue × List Char × Nat))
    (hpv : ∀ i v r w, pv i = some (v, r, w) → ParserShaped v) :
    ∀ (g : Nat) (es : List (String × JsonValue)) (w0 : Nat) (inp : List Char)
      (v : JsonValue) (r : List Char) (w : Nat),
      (es.map Prod.fst).Nodup → ParserShapedEntries es →
      parseObjLoop pv g es w0 inp = some (v, r, w) → ParserShaped v := by
  intro g
  induction g with
  | zero => intro es w0 inp v r w _ _ h; exact Option.noConfusion h
  | succ g ih =>
    intro es w0 inp v r w hnd hse h
    rw [parseObjLoop] at h
    split at h
    · exact Option.noConfusion h
    · rename_i k r1 w1 heq1
      split at h
      · rename_i r2 heq3
        split at h
        · exact Option.noConfusion h
        · rename_i v2 r3 w2 heq2
          dsimp only at h
          split at h
          · exact ih _ _ _ v r w (addValue_nodup es k v2 hnd)
              (addValue_shapedE es k v2 hse (hpv _ _ _ _ heq2)) h
          · simp only [Option.some.injEq, Prod.mk.injEq] at h
            exact h.1 ▸ ⟨addValue_nodup es k v2 hnd,
              addValue_shapedE es k v2 hse (hpv _ _ _ _ heq2)⟩
          · exact Option.noConfusion h
      · exact Option.noConfusion h

theorem parseArrLoop_shaped (pv : List Char → Option (JsonValue × List Char × Nat))
    (hpv : ∀ i v r w, pv i = some (v, r, w) → ParserShaped v) :
    ∀ (g : Nat) (vs : List JsonValue) (w0 : Nat) (inp : List Char)
      (v : JsonValue) (r : List Char) (w : Nat),
      ParserShapedItems vs →
      parseArrLoop pv g vs w0 inp = some (v, r, w) → ParserShaped v := by
  intro g
  induction g with
  | zero => intro vs w0 inp v r w _ h; exact Option.noConfusion h
  | succ g ih =>
    intro vs w0 inp v r w hsi h
    rw [parseArrLoop] at h
    split at h
    · exact Option.noConfusion h
    · rename_i v2 r1 w1 heq2
      split at h
      · exact ih _ _ _ v r w (shapedItems_append vs v2 hsi (hpv _ _ _ _ heq2)) h
      · simp only [Option.some.injEq, Prod.mk.injEq] at h
        exact h.1 ▸ shapedItems_append vs v2 hsi (hpv _ _ _ _ heq2)
      · exact Option.noConfusion h

theorem parseV_shaped : ∀ (f : Nat) (input : List Char) (v : JsonValue) (r : List Char) (w : Nat),
    parseV f input = some (v, r, w) → ParserShaped v := by
  intro f
  induction f with
  | zero => intro input v r w h; exact Option.noConfusion h
  | succ f ih =>
    intro input v r w h
    simp only [parseV] at h
    rw [Option.map_eq_some'] at h
    obtain ⟨⟨v0, r0, w0⟩, h, heq⟩ := h
    have hv : v0 = v := congrArg Prod.fst heq
    subst hv
    split at h
    · exact Option.noConfusion h
    · rename_i c T heqd
      rw [heqd] at h
      split_ifs at h with h1 h2 h3 h4 h5 h6 h7
      · subst h1
        have hred : parseObjStart (parseV f) f ('{' :: T) =
            (match dropWs T with
             | '}' :: r2 => some (.JsonObject [], r2, 0)
             | r1 => parseObjLoop (parseV f) f [] 0 r1) := rfl
        rw [hred] at h
        split at h
        · simp only [Option.some.injEq, Prod.mk.injEq] at h
          exact h.1 ▸ ⟨by simp, trivial⟩
        · exact parseObjLoop_shaped (parseV f)
            (fun i v' r' w' hh => ih i v' r' w' hh) f [] 0 _ v0 r0 w0 (by simp) trivial h
      · subst h2
        have hred : parseArrStart (parseV f) f ('[' :: T) =
            (match dropWs T with
             | ']' :: r2 => some (.JsonArray [], r2, 0)
             | r1 => parseArrLoop (parseV f) f [] 0 r1) := rfl
        rw [hred] at h
        split at h
        · simp only [Option.some.injEq, Prod.mk.injEq] at h
          exact h.1 ▸ trivial
        · exact parseArrLoop_shaped (parseV f)
            (fun i v' r' w' hh => ih i v' r' w' hh) f [] 0 _ v0 r0 w0 trivial h
      · rw [Option.map_eq_some'] at h
        obtain ⟨a, -, hb⟩ := h
        have hv0 : JsonValue.JsonString a.1 = v0 := congrArg Prod.fst hb
        exact hv0 ▸ trivial
      · rw [Option.map_eq_some'] at h
        obtain ⟨a, -, hb⟩ := h
        have hv0 : JsonValue.JsonTrue = v0 := congrArg Prod.fst hb
        exact hv0 ▸ trivial
      · rw [Option.map_eq_some'] at h
        obtain ⟨a, -, hb⟩ := h
        have hv0 : JsonValue.JsonFalse = v0 := congrArg Prod.fst hb
        exact hv0 ▸ trivial
      · rw [Option.map_eq_some'] at h
        obtain ⟨a, -, hb⟩ := h
        have hv0 : JsonValue.JsonNull = v0 := congrArg Prod.fst hb
        exact hv0 ▸ trivial
      · rw [Option.map_eq_some'] at h
        obtain ⟨⟨q2, r2⟩, hp, hb⟩ := h
        have hv0 : JsonValue.JsonNumber q2 = v0 := congrArg Prod.fst hb
        refine hv0 ▸ ?_
        simp only [ParserShaped]
        exact parseNumber_decimal _ _ _ hp

/-! # Claim C1: parse–print round trip -/

/-- Claim C1, counterexample to the claim as stated: the document
`"a\nb"` (an escaped newline inside a string) parses to a string value holding
a raw newline, `JsonString::print` re-emits that newline verbatim between the
quotes, and re-parsing the serialized text hits the fatal
`unexpected control character in string` branch of `Parser::string` — the
round trip aborts instead of returning an equal tree. -/
theorem round_trip_counterexample :
    parseDoc ['"', 'a', '\\', 'n', 'b', '"'] = some (.JsonString "a\nb", 0) ∧
    parseDoc (printDoc (.JsonString "a\nb")) = none := by
  with_unfolding_all decide

/-- Claim C1 (corrected): for every document `x` the parser accepts, if every
string value and object key of the resulting tree is free of `"`, `\` and
newline characters (so `JsonString::print`'s verbatim re-emission stays
re-parsable), then serializing the tree and re-parsing yields exactly the
original tree — structural equality is on the nose, with object keys in
insertion order, numbers as the exact decimal rationals the folds computed,
and zero warnings.  Strings with escapes or control characters break the
round trip, as the counterexample shows. -/
theorem round_trip (x : List Char) (t : JsonValue) (w : Nat)
    (hx : parseDoc x = some (t, w)) (hgs : goodStrings t = true) :
    parseDoc (printDoc t) = some (t, 0) := by
  have hsh : ParserShaped t := by
    rw [parseDoc, Option.map_eq_some'] at hx
    obtain ⟨⟨v, r, w0⟩, hp, hb⟩ := hx
    have hv : v = t := congrArg Prod.fst hb
    exact hv ▸ parseV_shaped _ _ _ _ _ hp
  rw [printDoc, parseDoc]
  have hrt := rtVal t 0 ((printVal t 0 ++ ['\n']).length + 1) ['\n'] hsh hgs
    (by
      have h := needFuel_le_print t 0
      simp only [List.length_append, List.length_cons, List.length_nil]
      omega)
    rfl
  rw [hrt]
  rfl

/-- Witness for `round_trip` on the one-token document `true`. -/
theorem round_trip_witness :
    parseDoc "true".data = some (.JsonTrue, 0) ∧ goodStrings .JsonTrue = true ∧
    parseDoc (printDoc .JsonTrue) = some (.JsonTrue, 0) :=
  ⟨by with_unfolding_all decide, rfl,
    round_trip "true".data .JsonTrue 0 (by with_unfolding_all decide) rfl⟩
